import Mathlib

/-!
Verification of the PyBaMM expression-tree-to-code compiler
(`pybamm/expression_tree/operations/evaluate.py`,
`pybamm/expression_tree/operations/evaluate_julia.py`,
`pybamm/expression_tree/input_parameter.py`) against its specification.

The Python sources are shallowly embedded: the expression tree becomes an
inductive type, the mutable `OrderedDict` tables become association lists
threaded through the traversal, Python exceptions become an `Except` monad,
and numpy/jax arrays become lists over `Int`/`Nat`.  External collaborators
that are not part of the three source files (the symbolic front end's
`is_constant`, `evaluate`, `evaluate_for_shape`, `pybamm.Array(...).id`)
are modelled from the spec and marked as such in their doc comments.
-/

namespace PyBamm

/-! ## Generic helpers -/

/-- Zero-pad a natural number to five digits, as Python's `"{:05d}".format(n)`
does for the nonnegative ids that occur here. -/
def pad5 (n : Nat) : String :=
  let s := toString n
  String.mk (List.replicate (5 - s.length) (Char.ofNat 48)) ++ s

/-- A single-quote character as a string (used to spell the generated
`inputs[...]` lookup without a bare apostrophe in the source). -/
def sq : String := (Char.ofNat 39).toString

/-- Shallow embedding of `id_to_python_variable` (evaluate.py lines 19-31):
`"const_{:05d}"` or `"var_{:05d}"` applied to a node id.  Ids are modelled as
naturals, so the `replace("-", "m")` step is the identity here. -/
def id_to_python_variable (symbol_id : Nat) (constant : Bool) : String :=
  (if constant then "const_" else "var_") ++ pad5 symbol_id

/-- Python errors that the embedded code can raise. -/
inductive PyErr where
  | notImplemented (kind : String)
  | nameError (name : String)
  | typeError (msg : String)
  | keyError (key : String)
  | indexError (msg : String)
deriving Repr, DecidableEq

/-- Python `d[k] = v` on an ordered dictionary: if the key is present its
value is updated in place (keeping its position); otherwise the pair is
appended at the end.  This is the insertion discipline of the
`collections.OrderedDict` tables threaded through `find_symbols`. -/
def upsert {α : Type} (k : Nat) (v : α) : List (Nat × α) → List (Nat × α)
  | [] => [(k, v)]
  | (k', v') :: rest => if k' = k then (k, v) :: rest else (k', v') :: upsert k v rest

theorem upsert_keys {α : Type} (k : Nat) (v : α) (l : List (Nat × α)) :
    (upsert k v l).map Prod.fst =
      if k ∈ l.map Prod.fst then l.map Prod.fst else l.map Prod.fst ++ [k] := by
  induction l with
  | nil => simp [upsert]
  | cons p rest ih =>
    by_cases h : p.1 = k
    · simp [upsert, h]
    · simp only [upsert]
      rw [if_neg (fun hh => h hh)]
      simp only [List.map_cons, ih]
      by_cases hm : k ∈ rest.map Prod.fst
      · simp [hm, Ne.symm h]
      · simp [hm, Ne.symm h]

theorem upsert_keys_ext {α : Type} (k : Nat) (v : α) (l : List (Nat × α)) :
    ∃ ext, (upsert k v l).map Prod.fst = l.map Prod.fst ++ ext := by
  rw [upsert_keys]
  by_cases hm : k ∈ l.map Prod.fst
  · exact ⟨[], by simp [hm]⟩
  · exact ⟨[k], by simp [hm]⟩

theorem upsert_nodup {α : Type} (k : Nat) (v : α) (l : List (Nat × α))
    (h : (l.map Prod.fst).Nodup) : ((upsert k v l).map Prod.fst).Nodup := by
  rw [upsert_keys]
  by_cases hm : k ∈ l.map Prod.fst
  · simpa [hm] using h
  · simp only [hm, if_false]
    refine List.Nodup.append h (List.nodup_singleton k) ?_
    intro a ha hb
    simp only [List.mem_singleton] at hb
    subst hb
    exact hm ha

theorem upsert_mem_self {α : Type} (k : Nat) (v : α) (l : List (Nat × α)) :
    (k, v) ∈ upsert k v l := by
  induction l with
  | nil => simp [upsert]
  | cons p rest ih =>
    by_cases h : p.1 = k
    · simp [upsert, h]
    · simp only [upsert, if_neg h]
      exact List.mem_cons_of_mem _ ih

theorem upsert_key_mem {α : Type} (k : Nat) (v : α) (l : List (Nat × α)) :
    k ∈ (upsert k v l).map Prod.fst := by
  rw [upsert_keys]
  by_cases hm : k ∈ l.map Prod.fst
  · simpa [hm] using hm
  · simp [hm]

/-! ## Sparse coordinate matrices and the custom kernels -/

/-- Shallow embedding of the `JaxCooMatrix` class (evaluate.py lines 395-401):
parallel row-index, column-index and value arrays plus a shape pair.  The
jax device arrays are modelled as lists; values are integers. -/
structure JaxCooMatrix where
  row : List Nat
  col : List Nat
  data : List Int
  shape : Nat × Nat
deriving Repr, DecidableEq

/-- Derived non-zero count `self.nnz = len(data)` (evaluate.py line 401). -/
def JaxCooMatrix.nnz (m : JaxCooMatrix) : Nat := m.data.length

/-- The (row, col, data) triples of a coordinate matrix, in storage order. -/
def JaxCooMatrix.entries (m : JaxCooMatrix) : List (Nat × Nat × Int) :=
  m.row.zip (m.col.zip m.data)

/-- Shallow embedding of `JaxCooMatrix.dot_product` (evaluate.py lines
403-409): start from a zero vector with one entry per matrix row, then for
every stored entry `(r, c, d)` scatter-add `d * b[c]` into position `r`
(`result.at[self.row].add(self.data.reshape(-1,1) * b[self.col])`; jax
scatter-add accumulates duplicate indices).  The column vector `b` and the
result are modelled as flat lists. -/
def JaxCooMatrix.dot_product (m : JaxCooMatrix) (b : List Int) : List Int :=
  m.entries.foldl
    (fun result e => result.set e.1 (result.getD e.1 0 + e.2.2 * b.getD e.2.1 0))
    (List.replicate m.shape.1 0)

/-- The reference value of one output position of the sparse product: the sum
of `d * b[c]` over all stored entries whose row index is `i`. -/
def cooRowSum (m : JaxCooMatrix) (b : List Int) (i : Nat) : Int :=
  ((m.entries.filter (fun e => e.1 = i)).map (fun e => e.2.2 * b.getD e.2.1 0)).sum

theorem getD_replicate_zero (n i : Nat) :
    (List.replicate n (0 : Int)).getD i 0 = 0 := by
  induction n generalizing i with
  | zero => simp [List.getD]
  | succ n ih =>
    cases i with
    | zero => simp [List.replicate_succ, List.getD]
    | succ i => simpa [List.replicate_succ, List.getD] using ih i

theorem scatter_fold_length (es : List (Nat × Nat × Int)) (b : List Int)
    (res : List Int) :
    (es.foldl
      (fun result e => result.set e.1 (result.getD e.1 0 + e.2.2 * b.getD e.2.1 0))
      res).length = res.length := by
  induction es generalizing res with
  | nil => rfl
  | cons e es ih => rw [List.foldl_cons, ih, List.length_set]

theorem scatter_fold_getD (es : List (Nat × Nat × Int)) (b : List Int)
    (res : List Int) (i : Nat) (hi : i < res.length)
    (hes : ∀ e ∈ es, e.1 < res.length) :
    (es.foldl
      (fun result e => result.set e.1 (result.getD e.1 0 + e.2.2 * b.getD e.2.1 0))
      res).getD i 0 =
      res.getD i 0 + ((es.filter (fun e => e.1 = i)).map
        (fun e => e.2.2 * b.getD e.2.1 0)).sum := by
  induction es generalizing res with
  | nil => simp
  | cons e es ih =>
    have he : e.1 < res.length := hes e (List.mem_cons_self e es)
    have hlen : (res.set e.1 (res.getD e.1 0 + e.2.2 * b.getD e.2.1 0)).length
        = res.length := by simp
    have hrec := ih (res.set e.1 (res.getD e.1 0 + e.2.2 * b.getD e.2.1 0))
      (by simpa [hlen] using hi)
      (fun e' he' => by
        have := hes e' (List.mem_cons_of_mem e he')
        simpa [hlen] using this)
    by_cases hei : e.1 = i
    · subst hei
      simp only [List.foldl_cons, hrec, List.filter_cons, List.map_cons]
      have hset : (res.set e.1 (res.getD e.1 0 + e.2.2 * b.getD e.2.1 0)).getD e.1 0
          = res.getD e.1 0 + e.2.2 * b.getD e.2.1 0 := by
        simp [List.getD, List.getElem?_set_self (by exact he)]
      simp only [hset]
      simp
      ring
    · simp only [List.foldl_cons, hrec, List.filter_cons]
      have hset : (res.set e.1 (res.getD e.1 0 + e.2.2 * b.getD e.2.1 0)).getD i 0
          = res.getD i 0 := by
        simp [List.getD, List.getElem?_set_ne (fun hh => hei hh)]
      simp only [hset]
      simp [hei]

/-- C6: `dot_product` returns a vector of length equal to the matrix's row
count, and each position `i` of the result holds the scatter-add
accumulation of `data[k] * b[col[k]]` over all stored entries `k` with
`row[k] = i` — duplicate row indices accumulate rather than overwrite.  The
closed conjunct checks the spec's concrete example: rows `[0,0,1]`, cols
`[0,1,0]`, data `[1,2,3]`, `b = [1,1]` gives `[3,3]`. -/
theorem dot_product_scatter_add (m : JaxCooMatrix) (b : List Int)
    (hrow : ∀ r ∈ m.row, r < m.shape.1) :
    (m.dot_product b).length = m.shape.1 ∧
    (∀ i, i < m.shape.1 → (m.dot_product b).getD i 0 = cooRowSum m b i) ∧
    JaxCooMatrix.dot_product ⟨[0, 0, 1], [0, 1, 0], [1, 2, 3], (2, 2)⟩ [1, 1]
      = [3, 3] := by
  refine ⟨?_, ?_, by decide⟩
  · simpa [JaxCooMatrix.dot_product] using
      scatter_fold_length m.entries b (List.replicate m.shape.1 0)
  · intro i hi
    have hes : ∀ e ∈ m.entries, e.1 < (List.replicate m.shape.1 (0 : Int)).length := by
      intro e he
      have : e.1 ∈ m.row := (List.of_mem_zip he).1
      simpa using hrow e.1 this
    have := scatter_fold_getD m.entries b (List.replicate m.shape.1 0) i
      (by simpa using hi) hes
    simpa [JaxCooMatrix.dot_product, cooRowSum, getD_replicate_zero] using this

/-- C6 witness: the general scatter-add theorem applied to the spec's
concrete example. -/
theorem dot_product_scatter_add_witness :
    ((JaxCooMatrix.mk [0, 0, 1] [0, 1, 0] [1, 2, 3] (2, 2)).dot_product [1, 1]).length
        = 2 ∧
    ((JaxCooMatrix.mk [0, 0, 1] [0, 1, 0] [1, 2, 3] (2, 2)).dot_product [1, 1]).getD 0 0
        = cooRowSum (JaxCooMatrix.mk [0, 0, 1] [0, 1, 0] [1, 2, 3] (2, 2)) [1, 1] 0 := by
  have h := dot_product_scatter_add
    (JaxCooMatrix.mk [0, 0, 1] [0, 1, 0] [1, 2, 3] (2, 2)) [1, 1]
    (by decide)
  exact ⟨h.1, h.2.1 0 (by decide)⟩

/-! ## The block-stacking constructor `jax_coo_vstack` -/

/-- Shallow embedding of `jax_coo_vstack` (evaluate.py lines 419-454).  The
function allocates an all-`False` `(M, 1)` block mask and zeroed row/column
extent arrays, and never fills any of them; the first use of the mask,
`blocks[block_mask]` in the `nnz` computation, indexes the caller's tuple of
blocks with a numpy boolean array, which Python rejects with a `TypeError`
before any block data is read.  The values computed up to that point are
reproduced literally. -/
def jax_coo_vstack (blocks : List JaxCooMatrix) : Except PyErr JaxCooMatrix :=
  let M := blocks.length
  let _N : Nat := 1
  let _block_mask : List Bool := List.replicate M false
  let _brow_lengths : List Nat := List.replicate M 0
  let _bcol_lengths : List Nat := List.replicate 1 0
  Except.error (PyErr.typeError "tuple indices must be integers or slices, not ndarray")

/-- Modelled from the spec: `vstack(blocks)` concatenates coordinate matrices
row-wise, offsetting each block's row indices by the cumulative row extents
of the preceding blocks, with shape equal to the summed row extent and the
maximal column extent.  This is the behaviour the specification describes
for the block-stacking constructor; it is the comparison point for the
implementation above. -/
def spec_vstack (blocks : List JaxCooMatrix) : JaxCooMatrix :=
  blocks.foldl
    (fun acc b =>
      { row := acc.row ++ b.row.map (fun r => r + acc.shape.1)
        col := acc.col ++ b.col
        data := acc.data ++ b.data
        shape := (acc.shape.1 + b.shape.1, max acc.shape.2 b.shape.2) })
    ⟨[], [], [], (0, 0)⟩

/-- C2: `jax_coo_vstack` never returns a stacked matrix — for every block
list (in particular the two concrete one-entry 1-by-1 blocks below) it
raises a `TypeError`, because the all-`False` block mask is used to index
the tuple of blocks; the spec-modelled stacking of the same two blocks is
the coordinate matrix with summed extents and both entries offset. -/
theorem jax_coo_vstack_type_error :
    (∀ blocks : List JaxCooMatrix,
      jax_coo_vstack blocks =
        Except.error
          (PyErr.typeError "tuple indices must be integers or slices, not ndarray")) ∧
    jax_coo_vstack [⟨[0], [0], [1], (1, 1)⟩, ⟨[0], [0], [2], (1, 1)⟩] =
      Except.error
        (PyErr.typeError "tuple indices must be integers or slices, not ndarray") ∧
    spec_vstack [⟨[0], [0], [1], (1, 1)⟩, ⟨[0], [0], [2], (1, 1)⟩] =
      ⟨[0, 1], [0, 0], [1, 2], (2, 1)⟩ := by
  exact ⟨fun blocks => rfl, rfl, by decide⟩

/-! ## InputParameter -/

/-- The Python value passed as the `inputs` / `u` argument at evaluation
time: `None` (the default), some non-mapping object, or a name-keyed
dictionary. -/
inductive PyInputs where
  | none
  | nonMapping (desc : String)
  | dict (entries : List (String × Int))
deriving Repr, DecidableEq

/-- Whether the value is a Python `dict`. -/
def PyInputs.isDict : PyInputs → Bool
  | .dict _ => true
  | _ => false

/-- Shallow embedding of `InputParameter.evaluate` (input_parameter.py lines
35-39): if `u` is not a `dict` raise
`TypeError("inputs u should be a dictionary")`; otherwise `u[self.name]`,
which raises a `KeyError` when the name is absent. -/
def InputParameter.evaluate (name : String) (u : PyInputs) : Except PyErr Int :=
  match u with
  | .dict entries =>
    match entries.lookup name with
    | some v => Except.ok v
    | Option.none => Except.error (PyErr.keyError name)
  | _ => Except.error (PyErr.typeError "inputs u should be a dictionary")

/-- Evaluation of the generated fragment `inputs['name']` (evaluate.py line
259) under Python subscription semantics: subscripting a non-mapping value
with a string raises a `TypeError`; a mapping without the key raises a
`KeyError`. -/
def python_subscript (u : PyInputs) (name : String) : Except PyErr Int :=
  match u with
  | .dict entries =>
    match entries.lookup name with
    | some v => Except.ok v
    | Option.none => Except.error (PyErr.keyError name)
  | .none => Except.error (PyErr.typeError "NoneType object is not subscriptable")
  | .nonMapping d => Except.error (PyErr.typeError (d ++ " object is not subscriptable"))


/-! ## The expression tree -/

/-- Value of evaluating a constant subtree: a bare Python number, a dense
(column) array, or a scipy sparse matrix held in coordinate form. -/
inductive PyValue where
  | num (v : Int)
  | arr (a : List Int)
  | spm (m : JaxCooMatrix)
deriving Repr, DecidableEq

/-- Whether the value is a bare number (`isinstance(value, numbers.Number)`). -/
def PyValue.isNum : PyValue → Bool
  | .num _ => true
  | _ => false

/-- Whether the value is a sparse matrix (`scipy.sparse.issparse(value)`). -/
def PyValue.issparse : PyValue → Bool
  | .spm _ => true
  | _ => false

/-- The closed set of expression-tree node kinds handled by `find_symbols`
(evaluate.py lines 95-264).  Every node carries its structural id.  A
`Scalar` or `Matrix` leaf is a constant owning its folded value; the other
kinds mirror the pybamm classes the dispatch chain tests for.  `UnknownKind`
stands for a synthetic node class outside the closed set. -/
inductive Symbol where
  | Scalar (id : Nat) (v : Int)
  | Matrix (id : Nat) (v : PyValue)
  | Multiplication (id : Nat) (l r : Symbol)
  | Division (id : Nat) (l r : Symbol)
  | Inner (id : Nat) (l r : Symbol)
  | Minimum (id : Nat) (l r : Symbol)
  | Maximum (id : Nat) (l r : Symbol)
  | BinaryOp (id : Nat) (opname : String) (l r : Symbol)
  | IndexOp (id : Nat) (start stop : Nat) (c : Symbol)
  | UnaryOp (id : Nat) (opname : String) (c : Symbol)
  | UFunc (id : Nat) (fname : String) (args : List Symbol)
  | ExternalFunction (id : Nat) (fid : Nat) (args : List Symbol)
  | NumpyConcatenation (id : Nat) (cs : List Symbol)
  | SparseStack (id : Nat) (cs : List Symbol)
  | DomainConcatenation (id : Nat) (npts : Nat) (cs : List Symbol)
      (children_slices : List (List (String × List (Nat × Nat))))
      (parent_slices : List (String × List (Nat × Nat)))
  | StateVector (id : Nat) (mask : List Bool)
  | Time (id : Nat)
  | InputParameterNode (id : Nat) (pname : String)
  | UnknownKind (id : Nat) (kind : String)

/-- The structural id of a node. -/
def Symbol.id : Symbol → Nat
  | .Scalar i _ => i
  | .Matrix i _ => i
  | .Multiplication i _ _ => i
  | .Division i _ _ => i
  | .Inner i _ _ => i
  | .Minimum i _ _ => i
  | .Maximum i _ _ => i
  | .BinaryOp i _ _ _ => i
  | .IndexOp i _ _ _ => i
  | .UnaryOp i _ _ => i
  | .UFunc i _ _ => i
  | .ExternalFunction i _ _ => i
  | .NumpyConcatenation i _ => i
  | .SparseStack i _ => i
  | .DomainConcatenation i _ _ _ _ => i
  | .StateVector i _ => i
  | .Time i => i
  | .InputParameterNode i _ => i
  | .UnknownKind i _ => i

/-- The ordered children sequence of a node (`symbol.children`). -/
def Symbol.children : Symbol → List Symbol
  | .Scalar _ _ => []
  | .Matrix _ _ => []
  | .Multiplication _ l r => [l, r]
  | .Division _ l r => [l, r]
  | .Inner _ l r => [l, r]
  | .Minimum _ l r => [l, r]
  | .Maximum _ l r => [l, r]
  | .BinaryOp _ _ l r => [l, r]
  | .IndexOp _ _ _ c => [c]
  | .UnaryOp _ _ c => [c]
  | .UFunc _ _ args => args
  | .ExternalFunction _ _ args => args
  | .NumpyConcatenation _ cs => cs
  | .SparseStack _ cs => cs
  | .DomainConcatenation _ _ cs _ _ => cs
  | .StateVector _ _ => []
  | .Time _ => []
  | .InputParameterNode _ _ => []
  | .UnknownKind _ _ => []

mutual
/-- Node count of a tree, used as the termination measure of the traversal. -/
def Symbol.size : Symbol → Nat
  | .Scalar _ _ => 1
  | .Matrix _ _ => 1
  | .Multiplication _ l r => 1 + l.size + r.size
  | .Division _ l r => 1 + l.size + r.size
  | .Inner _ l r => 1 + l.size + r.size
  | .Minimum _ l r => 1 + l.size + r.size
  | .Maximum _ l r => 1 + l.size + r.size
  | .BinaryOp _ _ l r => 1 + l.size + r.size
  | .IndexOp _ _ _ c => 1 + c.size
  | .UnaryOp _ _ c => 1 + c.size
  | .UFunc _ _ args => 1 + size_list args
  | .ExternalFunction _ _ args => 1 + size_list args
  | .NumpyConcatenation _ cs => 1 + size_list cs
  | .SparseStack _ cs => 1 + size_list cs
  | .DomainConcatenation _ _ cs _ _ => 1 + size_list cs
  | .StateVector _ _ => 1
  | .Time _ => 1
  | .InputParameterNode _ _ => 1
  | .UnknownKind _ _ => 1
/-- Total node count of a list of trees. -/
def size_list : List Symbol → Nat
  | [] => 0
  | c :: cs => c.size + size_list cs
end

theorem size_pos (s : Symbol) : 0 < s.size := by
  cases s <;> simp [Symbol.size]

theorem size_list_children (s : Symbol) : size_list s.children < s.size := by
  cases s <;> simp [Symbol.children, Symbol.size, size_list] <;> omega

mutual
/-- Modelled from the spec (§2, §3): the external tree predicate
`symbol.is_constant()` — a subtree is a compile-time constant iff it contains
no `StateVector`, `Time` or `InputParameter` leaf; the synthetic unknown
kind depends on evaluation-time data, so it is not a constant either. -/
def Symbol.is_constant : Symbol → Bool
  | .Scalar _ _ => true
  | .Matrix _ _ => true
  | .Multiplication _ l r => l.is_constant && r.is_constant
  | .Division _ l r => l.is_constant && r.is_constant
  | .Inner _ l r => l.is_constant && r.is_constant
  | .Minimum _ l r => l.is_constant && r.is_constant
  | .Maximum _ l r => l.is_constant && r.is_constant
  | .BinaryOp _ _ l r => l.is_constant && r.is_constant
  | .IndexOp _ _ _ c => c.is_constant
  | .UnaryOp _ _ c => c.is_constant
  | .UFunc _ _ args => all_constant args
  | .ExternalFunction _ _ args => all_constant args
  | .NumpyConcatenation _ cs => all_constant cs
  | .SparseStack _ cs => all_constant cs
  | .DomainConcatenation _ _ cs _ _ => all_constant cs
  | .StateVector _ _ => false
  | .Time _ => false
  | .InputParameterNode _ _ => false
  | .UnknownKind _ _ => false
/-- All members of a list of trees are compile-time constants. -/
def all_constant : List Symbol → Bool
  | [] => true
  | c :: cs => c.is_constant && all_constant cs
end

/-- Modelled from the spec (§4.1): a pointwise numeric combination used by
the external evaluator model below.  Sparse operands are returned unchanged;
no claim depends on the folded value of a composite constant subtree. -/
def pyElementwise (f : Int → Int → Int) : PyValue → PyValue → PyValue
  | .num a, .num b => .num (f a b)
  | .num a, .arr bs => .arr (bs.map (fun b => f a b))
  | .arr as, .num b => .arr (as.map (fun a => f a b))
  | .arr as, .arr bs => .arr (List.zipWith f as bs)
  | x, _ => x

/-- Flatten a folded value into the entries it contributes to a
concatenation. -/
def PyValue.flat : PyValue → List Int
  | .num v => [v]
  | .arr a => a
  | .spm m => m.data

mutual
/-- Modelled from the spec (§2, §4.1): the external `symbol.evaluate()` fold
of a constant subtree.  Constant leaves return their stored value; composite
nodes are given a straightforward elementwise/concatenation semantics; the
traversal only ever calls this on subtrees whose `is_constant` holds, and no
claim depends on the folded value of a composite node. -/
def Symbol.evaluate : Symbol → PyValue
  | .Scalar _ v => .num v
  | .Matrix _ v => v
  | .Multiplication _ l r => pyElementwise (fun a b => a * b) l.evaluate r.evaluate
  | .Division _ l r => pyElementwise (fun a b => a / b) l.evaluate r.evaluate
  | .Inner _ l r => pyElementwise (fun a b => a * b) l.evaluate r.evaluate
  | .Minimum _ l r => pyElementwise min l.evaluate r.evaluate
  | .Maximum _ l r => pyElementwise max l.evaluate r.evaluate
  | .BinaryOp _ op l r =>
    pyElementwise (if op = "-" then (fun a b => a - b) else (fun a b => a + b))
      l.evaluate r.evaluate
  | .IndexOp _ start stop c =>
    match c.evaluate with
    | .arr a => .arr ((a.drop start).take (stop - start))
    | v => v
  | .UnaryOp _ op c =>
    match c.evaluate with
    | .num v => .num (if op = "-" then -v else v)
    | .arr a => .arr (if op = "-" then a.map Neg.neg else a)
    | v => v
  | .UFunc _ _ _ => .num 0
  | .ExternalFunction _ _ _ => .num 0
  | .NumpyConcatenation _ cs => .arr (evaluate_flat cs)
  | .SparseStack _ cs => .arr (evaluate_flat cs)
  | .DomainConcatenation _ _ cs _ _ => .arr (evaluate_flat cs)
  | .StateVector _ _ => .num 0
  | .Time _ => .num 0
  | .InputParameterNode _ _ => .num 0
  | .UnknownKind _ _ => .num 0
/-- Concatenation of the folded values of a list of subtrees. -/
def evaluate_flat : List Symbol → List Int
  | [] => []
  | c :: cs => c.evaluate.flat ++ evaluate_flat cs
end

mutual
/-- Modelled from the spec (§4.2): whether the cheap shape-only evaluation
`symbol.evaluate_for_shape()` of a node produces a scipy sparse matrix.
Only the sparsity of the operand leaves is load-bearing in the theorems;
composite nodes propagate sparsity in the obvious way. -/
def Symbol.shape_sparse : Symbol → Bool
  | .Scalar _ _ => false
  | .Matrix _ v => v.issparse
  | .Multiplication _ l r => l.shape_sparse || r.shape_sparse
  | .Division _ l _ => l.shape_sparse
  | .Inner _ l r => l.shape_sparse || r.shape_sparse
  | .Minimum _ _ _ => false
  | .Maximum _ _ _ => false
  | .BinaryOp _ _ l r => l.shape_sparse || r.shape_sparse
  | .IndexOp _ _ _ c => c.shape_sparse
  | .UnaryOp _ _ c => c.shape_sparse
  | .UFunc _ _ _ => false
  | .ExternalFunction _ _ _ => false
  | .NumpyConcatenation _ _ => false
  | .SparseStack _ cs => any_shape_sparse cs
  | .DomainConcatenation _ _ _ _ _ => false
  | .StateVector _ _ => false
  | .Time _ => false
  | .InputParameterNode _ _ => false
  | .UnknownKind _ _ => false
/-- Some member of a list of trees has a sparse shape evaluation. -/
def any_shape_sparse : List Symbol → Bool
  | [] => false
  | c :: cs => c.shape_sparse || any_shape_sparse cs
end

mutual
/-- All subtrees of a tree (the tree itself included), in pre-order. -/
def Symbol.subsymbols (s : Symbol) : List Symbol :=
  s :: subsymbols_list s.children
termination_by (s.size, 0)
decreasing_by
  exact Prod.Lex.left _ _ (size_list_children s)
/-- All subtrees of the members of a list of trees. -/
def subsymbols_list (ss : List Symbol) : List Symbol :=
  match ss with
  | [] => []
  | c :: cs => c.subsymbols ++ subsymbols_list cs
termination_by (size_list ss, ss.length)
decreasing_by
  · show Prod.Lex _ _ (c.size, 0) (size_list (c :: cs), (c :: cs).length)
    by_cases h : size_list cs = 0
    · have he : c.size = size_list (c :: cs) := by simp [size_list, h]
      rw [he]; exact Prod.Lex.right _ (by simp)
    · exact Prod.Lex.left _ _ (by simp [size_list]; omega)
  · exact Prod.Lex.left _ _ (by have := size_pos c; simp [size_list]; omega)
end

/-- Whether a node is the synthetic out-of-set kind. -/
def Symbol.is_unknown : Symbol → Bool
  | .UnknownKind _ _ => true
  | _ => false

/-- Whether some subtree of `s` is of the synthetic out-of-set kind. -/
def Symbol.has_unknown (s : Symbol) : Bool :=
  s.subsymbols.any Symbol.is_unknown

/-! ## StateVector masks -/

/-- Positions of the `True` entries of the boolean selection mask
(`np.argwhere(symbol.evaluation_array).reshape(-1)`). -/
def mask_indices (mask : List Bool) : List Nat :=
  mask.enum.filterMap (fun p => if p.2 then some p.1 else none)

/-- Shallow embedding of the contiguity test
`np.all(indices[1:] - indices[:-1] == 1)` (evaluate.py line 246): every
adjacent difference is one; vacuously true for empty and singleton lists. -/
def consecutive : List Nat → Bool
  | [] => true
  | [_] => true
  | a :: b :: rest => ((b : Int) - (a : Int) == 1) && consecutive (b :: rest)

/-- Modelled from the spec (§3): the structural id of the fresh
`pybamm.Array(indices)` node materialized for a scattered selection — a
deterministic function of the index data standing in for the external
content hash. -/
def array_id (idx : List Nat) : Nat :=
  idx.foldl (fun a x => a * 1000003 + x + 1) 17

/-! ## Domain-ordered concatenation -/

/-- Lexicographic comparison of characters by code point, as Python compares
strings. -/
def char_list_le : List Char → List Char → Bool
  | [], _ => true
  | _ :: _, [] => false
  | a :: as, b :: bs =>
    if a.toNat < b.toNat then true
    else if b.toNat < a.toNat then false
    else char_list_le as bs

/-- Python string comparison `a <= b`. -/
def str_le (a b : String) : Bool := char_list_le a.data b.data

/-- Python tuple comparison `(n, s) <= (m, t)` on (int, str) pairs: compare
the numbers first, then the strings.  This is the order `sorted` uses on
the `zip(slice_starts, child_vectors)` pairs. -/
def pair_le (p q : Nat × String) : Bool :=
  decide (p.1 < q.1) || (p.1 == q.1 && str_le p.2 q.2)

/-- Decidable equality for `Except` results, so that concrete runs of the
embedded traversal can be checked by `decide`. -/
instance {ε α : Type} [DecidableEq ε] [DecidableEq α] : DecidableEq (Except ε α) :=
  fun a b =>
    match a, b with
    | .error e, .error f =>
      if h : e = f then isTrue (by rw [h]) else isFalse (by intro hh; cases hh; exact h rfl)
    | .ok x, .ok y =>
      if h : x = y then isTrue (by rw [h]) else isFalse (by intro hh; cases hh; exact h rfl)
    | .error _, .ok _ => isFalse (by intro hh; cases hh)
    | .ok _, .error _ => isFalse (by intro hh; cases hh)

/-- Stable insertion of an element into a sorted list, the auxiliary step of
`py_sorted`. -/
def insert_sorted {α : Type} (le : α → α → Bool) (x : α) : List α → List α
  | [] => [x]
  | y :: ys => if le x y then x :: y :: ys else y :: insert_sorted le x ys

/-- Reference model of Python's `sorted`: an insertion sort with respect to
a Boolean `le`.  For the antisymmetric total orders used here (Python tuple
comparison), a list that is a `le`-pairwise-ordered permutation of the
input is unique, so this agrees with Python's stable mergesort. -/
def py_sorted {α : Type} (le : α → α → Bool) : List α → List α
  | [] => []
  | x :: xs => insert_sorted le x (py_sorted le xs)

theorem insert_sorted_perm {α : Type} (le : α → α → Bool) (x : α) (l : List α) :
    (insert_sorted le x l).Perm (x :: l) := by
  induction l with
  | nil => simp [insert_sorted]
  | cons y ys ih =>
    by_cases h : le x y
    · simp [insert_sorted, h]
    · simp only [insert_sorted, h, Bool.false_eq_true, if_false]
      exact ((ih.cons y).trans (List.Perm.swap x y ys))

theorem py_sorted_perm {α : Type} (le : α → α → Bool) (l : List α) :
    (py_sorted le l).Perm l := by
  induction l with
  | nil => simp [py_sorted]
  | cons x xs ih =>
    exact (insert_sorted_perm le x (py_sorted le xs)).trans (ih.cons x)

theorem insert_sorted_pairwise {α : Type} (le : α → α → Bool)
    (htrans : ∀ a b c, le a b = true → le b c = true → le a c = true)
    (htotal : ∀ a b, le a b = true ∨ le b a = true) (x : α) (l : List α)
    (h : l.Pairwise (fun a b => le a b = true)) :
    (insert_sorted le x l).Pairwise (fun a b => le a b = true) := by
  induction l with
  | nil => simp [insert_sorted]
  | cons y ys ih =>
    rcases List.pairwise_cons.mp h with ⟨hy, hys⟩
    by_cases hxy : le x y
    · simp only [insert_sorted, hxy, if_true]
      refine List.pairwise_cons.mpr ⟨?_, h⟩
      intro z hz
      rcases List.mem_cons.mp hz with hz | hz
      · subst hz; exact hxy
      · exact htrans x y z hxy (hy z hz)
    · simp only [insert_sorted, hxy, Bool.false_eq_true, if_false]
      refine List.pairwise_cons.mpr ⟨?_, ih hys⟩
      intro z hz
      have hz' := (insert_sorted_perm le x ys).mem_iff.mp hz
      rcases List.mem_cons.mp hz' with hz' | hz'
      · rw [hz']
        rcases htotal x y with hh | hh
        · exact absurd hh (by simpa using hxy)
        · exact hh
      · exact hy z hz'

theorem py_sorted_pairwise {α : Type} (le : α → α → Bool)
    (htrans : ∀ a b c, le a b = true → le b c = true → le a c = true)
    (htotal : ∀ a b, le a b = true ∨ le b a = true) (l : List α) :
    (py_sorted le l).Pairwise (fun a b => le a b = true) := by
  induction l with
  | nil => simp [py_sorted]
  | cons x xs ih => exact insert_sorted_pairwise le htrans htotal x (py_sorted le xs) ih

/-- Lookup of `symbol._slices[child_dom][i]` (evaluate.py line 227): the
parent's declared slice of a domain at secondary-dimension repetition `i`. -/
def parent_slice (ps : List (String × List (Nat × Nat))) (dom : String) (i : Nat) :
    Nat × Nat :=
  ((ps.lookup dom).getD []).getD i (0, 0)

/-- One repetition of the inner double loop of the `DomainConcatenation`
branch (evaluate.py lines 224-232): for every child (in argument order) and
every domain of that child's slice map, pair the parent's declared slice
start with the sub-fragment `"{child_var}[{start}:{stop}]"` built from the
child's declared slice at repetition `i`. -/
def dom_rep_pairs (children_vars : List String)
    (children_slices : List (List (String × List (Nat × Nat))))
    (parent_slices : List (String × List (Nat × Nat))) (i : Nat) :
    List (Nat × String) :=
  (children_vars.zip children_slices).flatMap fun cv =>
    cv.2.map fun ds =>
      ((parent_slice parent_slices ds.1 i).1,
        cv.1 ++ "[" ++ toString (ds.2.getD i (0, 0)).1 ++ ":"
          ++ toString (ds.2.getD i (0, 0)).2 ++ "]")

/-- Shallow embedding of the `DomainConcatenation` sub-fragment assembly
(evaluate.py lines 221-235): `slice_starts` accumulates across repetitions
(it is initialized outside the repetition loop) while `child_vectors` is
reset per repetition; each repetition appends
`[v for _, v in sorted(zip(slice_starts, child_vectors))]`, where `zip`
truncates to the shorter list and `sorted` orders the (start, fragment)
pairs as Python tuples (start first, fragment string on ties). -/
def dom_concat_vectors (children_vars : List String)
    (children_slices : List (List (String × List (Nat × Nat))))
    (parent_slices : List (String × List (Nat × Nat))) (npts : Nat) :
    List String :=
  ((List.range npts).foldl
    (fun acc i =>
      let reps := dom_rep_pairs children_vars children_slices parent_slices i
      let slice_starts := acc.1 ++ reps.map Prod.fst
      let child_vectors := reps.map Prod.snd
      (slice_starts,
        acc.2 ++ (py_sorted pair_le (slice_starts.zip child_vectors)).map Prod.snd))
    (([] : List Nat), ([] : List String))).2

theorem char_list_le_total : ∀ as bs : List Char,
    char_list_le as bs = true ∨ char_list_le bs as = true := by
  intro as
  induction as with
  | nil => intro bs; left; cases bs <;> rfl
  | cons a as ih =>
    intro bs
    cases bs with
    | nil => right; rfl
    | cons b bs =>
      by_cases h1 : a.toNat < b.toNat
      · left; simp [char_list_le, h1]
      · by_cases h2 : b.toNat < a.toNat
        · right; simp [char_list_le, h2]
        · rcases ih bs with hh | hh
          · left; simp [char_list_le, h1, h2, hh]
          · right; simp [char_list_le, h1, h2, hh]

theorem char_list_le_trans : ∀ as bs cs : List Char,
    char_list_le as bs = true → char_list_le bs cs = true →
    char_list_le as cs = true := by
  intro as
  induction as with
  | nil => intro bs cs _ _; cases cs <;> rfl
  | cons a as ih =>
    intro bs cs h1 h2
    cases bs with
    | nil => simp [char_list_le] at h1
    | cons b bs =>
      cases cs with
      | nil => simp [char_list_le] at h2
      | cons c cs =>
        simp only [char_list_le] at h1 h2 ⊢
        by_cases hab : a.toNat < b.toNat
        · by_cases hbc : b.toNat < c.toNat
          · simp [show a.toNat < c.toNat by omega]
          · rw [if_neg hbc] at h2
            by_cases hcb : c.toNat < b.toNat
            · rw [if_pos hcb] at h2; simp at h2
            · simp [show a.toNat < c.toNat by omega]
        · rw [if_neg hab] at h1
          by_cases hba : b.toNat < a.toNat
          · rw [if_pos hba] at h1; simp at h1
          · rw [if_neg hba] at h1
            by_cases hbc : b.toNat < c.toNat
            · simp [show a.toNat < c.toNat by omega]
            · rw [if_neg hbc] at h2
              by_cases hcb : c.toNat < b.toNat
              · rw [if_pos hcb] at h2; simp at h2
              · rw [if_neg hcb] at h2
                have hac : ¬ a.toNat < c.toNat := by omega
                have hca : ¬ c.toNat < a.toNat := by omega
                rw [if_neg hac, if_neg hca]
                exact ih bs cs h1 h2

theorem pair_le_total : ∀ p q : Nat × String,
    pair_le p q = true ∨ pair_le q p = true := by
  intro p q
  by_cases h1 : p.1 < q.1
  · left; simp [pair_le, h1]
  · by_cases h2 : q.1 < p.1
    · right; simp [pair_le, h2]
    · have he : p.1 = q.1 := by omega
      rcases char_list_le_total p.2.data q.2.data with hh | hh
      · left; simp [pair_le, he, str_le, hh]
      · right; simp [pair_le, he, str_le, hh]

theorem pair_le_trans : ∀ p q r : Nat × String,
    pair_le p q = true → pair_le q r = true → pair_le p r = true := by
  intro p q r h1 h2
  simp only [pair_le, Bool.or_eq_true, decide_eq_true_eq, Bool.and_eq_true,
    beq_iff_eq] at h1 h2 ⊢
  rcases h1 with h1 | ⟨h1e, h1s⟩
  · rcases h2 with h2 | ⟨h2e, _⟩
    · left; omega
    · left; omega
  · rcases h2 with h2 | ⟨h2e, h2s⟩
    · left; omega
    · right
      exact ⟨by omega, char_list_le_trans _ _ _ h1s h2s⟩

theorem zip_map_fst_snd {α β : Type} (l : List (α × β)) :
    (l.map Prod.fst).zip (l.map Prod.snd) = l := by
  induction l with
  | nil => rfl
  | cons p rest ih => simp [ih]

/-- C3 (amended): with a single secondary-dimension repetition, the emitted
sub-fragment list is exactly the Python-tuple sort of the declared
(start, fragment) pairs — a permutation of the declared pairs that is
pairwise ordered by `pair_le`, hence ascending in the declared slice
starts; two sub-fragments with equal start are ordered by comparing the
fragment strings themselves (the second tuple component), not by encounter
order.  The closed conjunct checks the spec's example: declared starts
`5, 0, 10` are emitted in start order `0, 5, 10`. -/
theorem domain_concat_amended (children_vars : List String)
    (children_slices : List (List (String × List (Nat × Nat))))
    (parent_slices : List (String × List (Nat × Nat))) :
    dom_concat_vectors children_vars children_slices parent_slices 1
      = (py_sorted pair_le
          (dom_rep_pairs children_vars children_slices parent_slices 0)).map Prod.snd ∧
    (py_sorted pair_le
      (dom_rep_pairs children_vars children_slices parent_slices 0)).Perm
        (dom_rep_pairs children_vars children_slices parent_slices 0) ∧
    (py_sorted pair_le
      (dom_rep_pairs children_vars children_slices parent_slices 0)).Pairwise
        (fun p q => p.1 ≤ q.1) ∧
    dom_concat_vectors ["var_00001"]
        [[("d1", [(5, 6)]), ("d2", [(0, 1)]), ("d3", [(10, 11)])]]
        [("d1", [(5, 6)]), ("d2", [(0, 1)]), ("d3", [(10, 11)])] 1
      = ["var_00001[0:1]", "var_00001[5:6]", "var_00001[10:11]"] := by
  refine ⟨?_, py_sorted_perm _ _, ?_, ?_⟩
  · simp [dom_concat_vectors, List.range_succ, zip_map_fst_snd]
  · refine List.Pairwise.imp ?_
      (py_sorted_pairwise pair_le pair_le_trans pair_le_total _)
    intro p q hpq
    simp only [pair_le, Bool.or_eq_true, decide_eq_true_eq, Bool.and_eq_true,
      beq_iff_eq] at hpq
    rcases hpq with h | ⟨h, _⟩
    · omega
    · omega
  · simp only [dom_concat_vectors, dom_rep_pairs, parent_slice,
      List.range_succ, List.range_zero]
    decide

/-- Modelled from the spec: the ordering the claim asserts for the
`DomainConcatenation` sub-fragments — a stable sort of the
(start, fragment) pairs by start alone, ties keeping encounter order. -/
def spec_stable_by_start (pairs : List (Nat × String)) : List (Nat × String) :=
  py_sorted (fun p q => decide (p.1 ≤ q.1)) pairs

/-! ## The tables of `find_symbols` -/

/-- Entries of the constant table: a folded host value, a converted
coordinate matrix (`no_sparse`), a stored opaque callable
(`symbol.function`), or the integer index array materialized for a
scattered `StateVector` selection. -/
inductive ConstVal where
  | val (v : PyValue)
  | jaxcoo (m : JaxCooMatrix)
  | callable (fid : Nat)
  | indexArray (idx : List Nat)
deriving Repr, DecidableEq

/-- The two ordered tables threaded through `find_symbols`
(`constant_symbols` and `variable_symbols`, evaluate.py lines 34-58). -/
structure Tables where
  constant_symbols : List (Nat × ConstVal)
  variable_symbols : List (Nat × String)
deriving Repr, DecidableEq

/-- The reference name used for a child when building the parent's fragment
(evaluate.py lines 84-93): a constant child folding to a bare number is
inlined as its literal text; a constant child with a non-number value is
referenced through its constant name; any other child through its variable
name. -/
def child_var (c : Symbol) : String :=
  if c.is_constant then
    match c.evaluate with
    | .num v => toString v
    | _ => id_to_python_variable c.id true
  else id_to_python_variable c.id false

/-- Python-style class name of a node, used in the "Not implemented" error
message (evaluate.py lines 261-264). -/
def Symbol.kind_name : Symbol → String
  | .Scalar _ _ => "pybamm.Scalar"
  | .Matrix _ _ => "pybamm.Matrix"
  | .Multiplication _ _ _ => "pybamm.Multiplication"
  | .Division _ _ _ => "pybamm.Division"
  | .Inner _ _ _ => "pybamm.Inner"
  | .Minimum _ _ _ => "pybamm.Minimum"
  | .Maximum _ _ _ => "pybamm.Maximum"
  | .BinaryOp _ _ _ _ => "pybamm.BinaryOperator"
  | .IndexOp _ _ _ _ => "pybamm.Index"
  | .UnaryOp _ _ _ => "pybamm.UnaryOperator"
  | .UFunc _ _ _ => "pybamm.Function"
  | .ExternalFunction _ _ _ => "pybamm.Function"
  | .NumpyConcatenation _ _ => "pybamm.NumpyConcatenation"
  | .SparseStack _ _ => "pybamm.SparseStack"
  | .DomainConcatenation _ _ _ _ _ => "pybamm.DomainConcatenation"
  | .StateVector _ _ => "pybamm.StateVector"
  | .Time _ => "pybamm.Time"
  | .InputParameterNode _ _ => "pybamm.InputParameter"
  | .UnknownKind _ k => k

/-- Shallow embedding of the per-kind dispatch chain of `find_symbols`
(evaluate.py lines 95-264), producing this node's fragment string from the
children's reference names; the `ExternalFunction` and scattered
`StateVector` branches also insert into the constant table.  The
`Division` branch with a sparse left operand under `no_sparse` reproduces
the source's `NameError`: its debug `print` call reads `dummy_eval_right`,
which is never assigned in that branch.  A node whose kind matches no arm
of the chain raises `NotImplementedError` naming the kind. -/
def select_symbol (no_sparse : Bool) (s : Symbol) (children_vars : List String)
    (consts : List (Nat × ConstVal)) : Except PyErr (String × List (Nat × ConstVal)) :=
  let v0 := children_vars.getD 0 ""
  let v1 := children_vars.getD 1 ""
  match s with
  | .Multiplication _ l r =>
    if l.shape_sparse then
      if no_sparse then Except.ok (v0 ++ ".dot_product(" ++ v1 ++ ")", consts)
      else Except.ok (v0 ++ ".multiply(" ++ v1 ++ ")", consts)
    else if r.shape_sparse then
      -- source line 115: `"{1}.dot_product({1})"` — both slots are filled
      -- with the right child's name
      if no_sparse then Except.ok (v1 ++ ".dot_product(" ++ v1 ++ ")", consts)
      else Except.ok (v1 ++ ".multiply(" ++ v0 ++ ")", consts)
    else Except.ok (v0 ++ " * " ++ v1, consts)
  | .Division _ l _ =>
    if l.shape_sparse then
      if no_sparse then Except.error (PyErr.nameError "dummy_eval_right")
      else Except.ok (v0 ++ ".multiply(1/" ++ v1 ++ ")", consts)
    else Except.ok (v0 ++ " / " ++ v1, consts)
  | .Inner _ l r =>
    if l.shape_sparse then
      if no_sparse then Except.ok (v0 ++ ".dot_product(" ++ v1 ++ ")", consts)
      else Except.ok (v0 ++ ".multiply(" ++ v1 ++ ")", consts)
    else if r.shape_sparse then
      -- source line 157: `"{0}.dot_product({1})"` — the dense left operand
      -- is the receiver of the sparse kernel call
      if no_sparse then Except.ok (v0 ++ ".dot_product(" ++ v1 ++ ")", consts)
      else Except.ok (v1 ++ ".multiply(" ++ v0 ++ ")", consts)
    else Except.ok (v0 ++ " * " ++ v1, consts)
  | .Minimum _ _ _ => Except.ok ("np.minimum(" ++ v0 ++ "," ++ v1 ++ ")", consts)
  | .Maximum _ _ _ => Except.ok ("np.maximum(" ++ v0 ++ "," ++ v1 ++ ")", consts)
  | .BinaryOp _ op _ _ => Except.ok (v0 ++ " " ++ op ++ " " ++ v1, consts)
  | .IndexOp _ start stop _ =>
    Except.ok (v0 ++ "[" ++ toString start ++ ":" ++ toString stop ++ "]", consts)
  | .UnaryOp _ op _ => Except.ok (op ++ v0, consts)
  | .UFunc _ fname _ =>
    Except.ok ("np." ++ fname ++ "(" ++ String.intercalate ", " children_vars ++ ")",
      consts)
  | .ExternalFunction i fid _ =>
    Except.ok
      (id_to_python_variable i true ++ "(" ++ String.intercalate ", " children_vars ++ ")",
        upsert i (ConstVal.callable fid) consts)
  | .NumpyConcatenation _ _ =>
    if children_vars.length > 1 then
      Except.ok ("np.concatenate((" ++ String.intercalate "," children_vars ++ "))",
        consts)
    else Except.ok (String.intercalate "," children_vars, consts)
  | .SparseStack _ _ =>
    if children_vars.length > 1 then
      if no_sparse then
        Except.ok ("jax_coo_vstack((" ++ String.intercalate "," children_vars ++ "))",
          consts)
      else
        Except.ok ("scipy.sparse.vstack((" ++ String.intercalate "," children_vars ++ "))",
          consts)
    else Except.ok (String.intercalate "," children_vars, consts)
  | .DomainConcatenation _ npts _ children_slices parent_slices =>
    let acv := dom_concat_vectors children_vars children_slices parent_slices npts
    if children_vars.length > 1 || npts > 1 then
      Except.ok ("np.concatenate((" ++ String.intercalate "," acv ++ "))", consts)
    else Except.ok (String.intercalate "," children_vars, consts)
  | .StateVector _ mask =>
    let indices := mask_indices mask
    if indices.length == 1 || consecutive indices then
      match indices with
      | [] => Except.error (PyErr.indexError "index 0 is out of bounds for axis 0 with size 0")
      | i0 :: rest =>
        Except.ok ("y[" ++ toString i0 ++ ":"
          ++ toString (List.getLastD (i0 :: rest) 0 + 1) ++ "]", consts)
    else
      let aid := array_id indices
      Except.ok ("y[" ++ id_to_python_variable aid true ++ "]",
        upsert aid (ConstVal.indexArray indices) consts)
  | .Time _ => Except.ok ("t", consts)
  | .InputParameterNode _ pname =>
    Except.ok ("inputs[" ++ sq ++ pname ++ sq ++ "]", consts)
  | other => Except.error (PyErr.notImplemented other.kind_name)

mutual
/-- Shallow embedding of `find_symbols` (evaluate.py lines 34-266).  A
constant node is folded: a bare number leaves the tables unchanged, a
sparse value is converted to the coordinate form under `no_sparse`, and any
other non-number value is stored in the constant table keyed by the node's
id; children of a constant node are never visited.  A non-constant node
first processes all children in order, then computes the children's
reference names, runs the dispatch chain and records the fragment in the
variable table keyed by the node's id (an existing key keeps its
position). -/
def find_symbols (no_sparse : Bool) (s : Symbol) (t : Tables) : Except PyErr Tables :=
  if s.is_constant then
    match s.evaluate with
    | .num _ => Except.ok t
    | .spm m =>
      if no_sparse then
        Except.ok ⟨upsert s.id (ConstVal.jaxcoo m) t.constant_symbols,
          t.variable_symbols⟩
      else
        Except.ok ⟨upsert s.id (ConstVal.val (PyValue.spm m)) t.constant_symbols,
          t.variable_symbols⟩
    | .arr a =>
      Except.ok ⟨upsert s.id (ConstVal.val (PyValue.arr a)) t.constant_symbols,
        t.variable_symbols⟩
  else
    match find_symbols_list no_sparse s.children t with
    | .error e => Except.error e
    | .ok t1 =>
      match select_symbol no_sparse s (s.children.map child_var) t1.constant_symbols with
      | .error e => Except.error e
      | .ok p => Except.ok ⟨p.2, upsert s.id p.1 t1.variable_symbols⟩
termination_by (s.size, 0)
decreasing_by
  exact Prod.Lex.left _ _ (size_list_children s)
/-- Recursive processing of a children list, left to right
(evaluate.py lines 79-80); an exception raised on a child propagates. -/
def find_symbols_list (no_sparse : Bool) (ss : List Symbol) (t : Tables) :
    Except PyErr Tables :=
  match ss with
  | [] => Except.ok t
  | c :: cs =>
    match find_symbols no_sparse c t with
    | .error e => Except.error e
    | .ok t1 => find_symbols_list no_sparse cs t1
termination_by (size_list ss, ss.length)
decreasing_by
  · show Prod.Lex _ _ (c.size, 0) (size_list (c :: cs), (c :: cs).length)
    by_cases h : size_list cs = 0
    · have he : c.size = size_list (c :: cs) := by simp [size_list, h]
      rw [he]; exact Prod.Lex.right _ (by simp)
    · exact Prod.Lex.left _ _ (by simp [size_list]; omega)
  · exact Prod.Lex.left _ _ (by have := size_pos c; simp [size_list]; omega)
end

/-- Shallow embedding of `to_python` (evaluate.py lines 269-317), on the
`debug=False` path: run the traversal from empty tables and join the
variable table into `name = fragment` lines in table order. -/
def to_python (no_sparse : Bool) (s : Symbol) :
    Except PyErr (List (Nat × ConstVal) × String) :=
  match find_symbols no_sparse s ⟨[], []⟩ with
  | .error e => Except.error e
  | .ok t =>
    Except.ok (t.constant_symbols,
      String.intercalate "\n"
        (t.variable_symbols.map fun p => id_to_python_variable p.1 false ++ " = " ++ p.2))

/-! ## Per-claim theorems about the traversal -/

/-- C3 counterexample: two sub-fragments with equal declared slice start.
Supplied in encounter order `var_00005[0:1]`, `var_00002[0:1]`, the emitted
concatenation lists them as `var_00002[0:1]`, `var_00005[0:1]` — `sorted`
compares the (start, fragment) tuples, so the tie is broken by comparing
the fragment strings — while the claim's stable-by-start order keeps the
encounter order. -/
theorem domain_concat_tie_counterexample :
    find_symbols false
      (Symbol.DomainConcatenation 9 1
        [Symbol.StateVector 5 [true], Symbol.StateVector 2 [true, false]]
        [[("d1", [(0, 1)])], [("d2", [(0, 1)])]]
        [("d1", [(0, 1)]), ("d2", [(0, 1)])]) ⟨[], []⟩
      = Except.ok ⟨[],
          [(5, "y[0:1]"), (2, "y[0:1]"),
           (9, "np.concatenate((var_00002[0:1],var_00005[0:1]))")]⟩ ∧
    (spec_stable_by_start
        (dom_rep_pairs ["var_00005", "var_00002"]
          [[("d1", [(0, 1)])], [("d2", [(0, 1)])]]
          [("d1", [(0, 1)]), ("d2", [(0, 1)])] 0)).map Prod.snd
      = ["var_00005[0:1]", "var_00002[0:1]"] ∧
    "np.concatenate((var_00002[0:1],var_00005[0:1]))"
      ≠ "np.concatenate((var_00005[0:1],var_00002[0:1]))" := by
  refine ⟨?_, ?_, by decide⟩
  · simp only [find_symbols, find_symbols_list, select_symbol, Symbol.is_constant,
      all_constant, Symbol.evaluate, Symbol.children, child_var, Symbol.id,
      mask_indices, consecutive, upsert, Symbol.shape_sparse, PyValue.issparse,
      id_to_python_variable, pad5, dom_concat_vectors, dom_rep_pairs,
      parent_slice, py_sorted, insert_sorted, pair_le, str_le, char_list_le]
    decide
  · simp only [spec_stable_by_start, dom_rep_pairs, parent_slice, py_sorted,
      insert_sorted]
    decide

/-- C1: the sparse-operand dispatch of `find_symbols` under `no_sparse` does
not apply the sparse operand's coordinate kernel to the other operand.  For
a `Multiplication` with a dense (state-vector) left child and a sparse
constant right child the emitted fragment is
`const_00002.dot_product(const_00002)` — the right operand applied to
itself, the left operand never referenced (source line 115 fills both
format slots with `{1}`) — instead of the claim's
`const_00002.dot_product(var_00001)`.  A `Division` with a sparse left
child does not even complete: the branch's debug `print` reads the
undefined name `dummy_eval_right` and raises a `NameError`.  An `Inner`
with a sparse right child calls `dot_product` on the dense left operand
(source line 157) instead of the sparse right one. -/
theorem sparse_dispatch_bug :
    find_symbols true
      (Symbol.Multiplication 3 (Symbol.StateVector 1 [true])
        (Symbol.Matrix 2 (PyValue.spm ⟨[0], [0], [5], (1, 1)⟩))) ⟨[], []⟩
      = Except.ok ⟨[(2, ConstVal.jaxcoo ⟨[0], [0], [5], (1, 1)⟩)],
          [(1, "y[0:1]"), (3, "const_00002.dot_product(const_00002)")]⟩ ∧
    "const_00002.dot_product(const_00002)" ≠ "const_00002.dot_product(var_00001)" ∧
    find_symbols true
      (Symbol.Division 6 (Symbol.Matrix 4 (PyValue.spm ⟨[0], [0], [5], (1, 1)⟩))
        (Symbol.StateVector 5 [true])) ⟨[], []⟩
      = Except.error (PyErr.nameError "dummy_eval_right") ∧
    find_symbols true
      (Symbol.Inner 9 (Symbol.StateVector 7 [true])
        (Symbol.Matrix 8 (PyValue.spm ⟨[0], [0], [5], (1, 1)⟩))) ⟨[], []⟩
      = Except.ok ⟨[(8, ConstVal.jaxcoo ⟨[0], [0], [5], (1, 1)⟩)],
          [(7, "y[0:1]"), (9, "var_00007.dot_product(const_00008)")]⟩ ∧
    "var_00007.dot_product(const_00008)" ≠ "const_00008.dot_product(var_00007)" := by
  refine ⟨?_, by decide, ?_, ?_, by decide⟩ <;>
  · simp only [find_symbols, find_symbols_list, select_symbol, Symbol.is_constant,
      all_constant, Symbol.evaluate, Symbol.children, child_var, Symbol.id,
      mask_indices, consecutive, upsert, Symbol.shape_sparse, PyValue.issparse,
      id_to_python_variable, pad5]
    decide

theorem consecutive_range' (i k : Nat) :
    consecutive (List.range' i k) = true := by
  induction k generalizing i with
  | zero => rfl
  | succ k ih =>
    cases k with
    | zero => rfl
    | succ k2 =>
      have h1 : List.range' i (k2 + 2) = i :: List.range' (i + 1) (k2 + 1) := by
        simp [List.range'_succ]
      have h2 : List.range' (i + 1) (k2 + 1) = (i + 1) :: List.range' (i + 2) k2 := by
        simp [List.range'_succ]
      rw [h1, h2]
      show (((i + 1 : Int) - (i : Int) == 1) &&
        consecutive ((i + 1) :: List.range' (i + 2) k2)) = true
      rw [← h2, ih (i + 1)]
      simp

theorem getLastD_range' (i k : Nat) :
    (List.range' i (k + 1)).getLastD 0 = i + k := by
  induction k generalizing i with
  | zero => simp [List.range'_succ]
  | succ k ih =>
    rw [List.range'_succ]
    have h2 : List.range' (i + 1) (k + 1) ≠ [] := by simp [List.range'_succ]
    cases h : List.range' (i + 1) (k + 1) with
    | nil => exact absurd h h2
    | cons a rest =>
      have := ih (i + 1)
      rw [h] at this
      simp only [List.getLastD_cons] at this ⊢
      rw [this]
      omega

theorem range'_ne_nil (i k : Nat) : List.range' i (k + 1) ≠ [] := by
  simp [List.range'_succ]

/-- C7: the `StateVector` branch of `find_symbols`.  If the selection mask
selects the contiguous ascending run `[i, i+k)` with `k ≥ 1` (a single index
included), the emitted fragment is the single slice `y[i:i+k]` and the
constant table is left untouched; if the selected indices are non-contiguous
the integer index array is added to the constant table under the fresh
array node's id and the fragment indexes `y` by that constant's name. -/
theorem statevector_fragments (ns : Bool) (id : Nat) (mask : List Bool) (t : Tables) :
    (∀ i k, mask_indices mask = List.range' i (k + 1) →
      find_symbols ns (Symbol.StateVector id mask) t
        = Except.ok ⟨t.constant_symbols,
            upsert id ("y[" ++ toString i ++ ":" ++ toString (i + k + 1) ++ "]")
              t.variable_symbols⟩) ∧
    (consecutive (mask_indices mask) = false →
      find_symbols ns (Symbol.StateVector id mask) t
        = Except.ok ⟨upsert (array_id (mask_indices mask))
              (ConstVal.indexArray (mask_indices mask)) t.constant_symbols,
            upsert id ("y[" ++ id_to_python_variable (array_id (mask_indices mask)) true
              ++ "]") t.variable_symbols⟩ ∧
      (array_id (mask_indices mask), ConstVal.indexArray (mask_indices mask))
        ∈ (upsert (array_id (mask_indices mask))
            (ConstVal.indexArray (mask_indices mask)) t.constant_symbols)) := by
  constructor
  · intro i k hmask
    rw [find_symbols]
    simp only [Symbol.is_constant, Bool.false_eq_true, if_false, Symbol.children,
      find_symbols_list, List.map_nil, select_symbol, hmask, Symbol.id]
    rw [consecutive_range' i (k + 1)]
    simp only [Bool.or_true, if_true]
    cases h : List.range' i (k + 1) with
    | nil => exact absurd h (range'_ne_nil i k)
    | cons a rest =>
      have hc : a :: rest = i :: List.range' (i + 1) k := by
        rw [← h]; simp [List.range'_succ]
      have ha : a = i := (List.cons.inj hc).1
      have hlast : (a :: rest).getLastD 0 = i + k := by
        rw [← h]; exact getLastD_range' i k
      subst ha
      dsimp only
      rw [hlast]
  · intro hcons
    rw [find_symbols]
    simp only [Symbol.is_constant, Bool.false_eq_true, if_false, Symbol.children,
      find_symbols_list, List.map_nil, select_symbol, Symbol.id, hcons]
    have hlen : (mask_indices mask).length ≠ 1 := by
      intro hl
      cases hi : mask_indices mask with
      | nil => rw [hi] at hl; simp at hl
      | cons a rest =>
        rw [hi] at hl
        simp at hl
        rw [hi, hl] at hcons
        simp [consecutive] at hcons
    have hb : ((mask_indices mask).length == 1) = false := by
      rw [beq_eq_false_iff_ne]; exact hlen
    simp only [hb, Bool.false_or, Bool.false_eq_true, if_false]
    exact ⟨trivial, upsert_mem_self _ _ _⟩

/-- C8: an `InputParameter` node compiles to the fragment `inputs['name']`
(no defaulting or coercion appears in the generated code), and the name
lookup that fragment performs — identically `InputParameter.evaluate` from
the source and the Python subscription of the generated line — raises a
`TypeError` when `inputs` is not a mapping, raises a `KeyError` when the
mapping lacks the declared name, and returns a value only when the mapping
really contains it under that name. -/
theorem input_parameter_failure_modes (name : String) (u : PyInputs) :
    (∀ ns i t, find_symbols ns (Symbol.InputParameterNode i name) t
      = Except.ok ⟨t.constant_symbols,
          upsert i ("inputs[" ++ sq ++ name ++ sq ++ "]") t.variable_symbols⟩) ∧
    (u.isDict = false →
      InputParameter.evaluate name u =
        Except.error (PyErr.typeError "inputs u should be a dictionary") ∧
      ∃ msg, python_subscript u name = Except.error (PyErr.typeError msg)) ∧
    (∀ entries, u = PyInputs.dict entries → entries.lookup name = Option.none →
      InputParameter.evaluate name u = Except.error (PyErr.keyError name) ∧
      python_subscript u name = Except.error (PyErr.keyError name)) ∧
    (∀ v, python_subscript u name = Except.ok v →
      ∃ entries, u = PyInputs.dict entries ∧ entries.lookup name = some v) := by
  refine ⟨?_, ?_, ?_, ?_⟩
  · intro ns i t
    rw [find_symbols]
    simp [Symbol.is_constant, Symbol.children, find_symbols_list, select_symbol,
      Symbol.id]
  · intro hd
    cases u with
    | none => exact ⟨rfl, _, rfl⟩
    | nonMapping d => exact ⟨rfl, _, rfl⟩
    | dict entries => simp [PyInputs.isDict] at hd
  · intro entries hu hl
    subst hu
    simp [InputParameter.evaluate, python_subscript, hl]
  · intro v hv
    cases u with
    | none => simp [python_subscript] at hv
    | nonMapping d => simp [python_subscript] at hv
    | dict entries =>
      refine ⟨entries, rfl, ?_⟩
      cases hl : entries.lookup name with
      | none => simp [python_subscript, hl] at hv
      | some w => simpa [python_subscript, hl] using hv

/-- C8 witness: the fragment and both failure modes at the concrete
parameter name `Tref`: `inputs = None` gives a type error, and the mapping
`[("other", 5)]` gives a key error. -/
theorem input_parameter_failure_modes_witness :
    find_symbols false (Symbol.InputParameterNode 3 "Tref") ⟨[], []⟩
      = Except.ok ⟨[], [(3, "inputs[" ++ sq ++ "Tref" ++ sq ++ "]")]⟩ ∧
    InputParameter.evaluate "Tref" PyInputs.none =
      Except.error (PyErr.typeError "inputs u should be a dictionary") ∧
    InputParameter.evaluate "Tref" (PyInputs.dict [("other", 5)]) =
      Except.error (PyErr.keyError "Tref") ∧
    python_subscript (PyInputs.dict [("other", 5)]) "Tref" =
      Except.error (PyErr.keyError "Tref") := by
  refine ⟨?_, ?_, ?_, ?_⟩
  · exact (input_parameter_failure_modes "Tref" PyInputs.none).1 false 3 ⟨[], []⟩
  · exact ((input_parameter_failure_modes "Tref" PyInputs.none).2.1 (by decide)).1
  · exact ((input_parameter_failure_modes "Tref"
      (PyInputs.dict [("other", 5)])).2.2.1 [("other", 5)] rfl (by decide)).1
  · exact ((input_parameter_failure_modes "Tref"
      (PyInputs.dict [("other", 5)])).2.2.1 [("other", 5)] rfl (by decide)).2

/-- C7 witness: the theorem applied to the contiguous mask
`[false, true, true]` (run `[1, 3)`) and to the scattered mask
`[true, false, true]`. -/
theorem statevector_fragments_witness :
    find_symbols false (Symbol.StateVector 4 [false, true, true]) ⟨[], []⟩
      = Except.ok ⟨[], [(4, "y[1:3]")]⟩ ∧
    find_symbols false (Symbol.StateVector 4 [true, false, true]) ⟨[], []⟩
      = Except.ok ⟨[(array_id [0, 2], ConstVal.indexArray [0, 2])],
          [(4, "y[" ++ id_to_python_variable (array_id [0, 2]) true ++ "]")]⟩ := by
  constructor
  · have h := (statevector_fragments false 4 [false, true, true] ⟨[], []⟩).1 1 1
      (by decide)
    rw [h]
    decide
  · have h := (statevector_fragments false 4 [true, false, true] ⟨[], []⟩).2
      (by decide)
    rw [h.1]
    have he : mask_indices [true, false, true] = [0, 2] := by decide
    rw [he]
    rfl

/-- Some subtree of a member of the list is of the synthetic out-of-set
kind. -/
def list_has_unknown (ss : List Symbol) : Bool :=
  (subsymbols_list ss).any Symbol.is_unknown

theorem has_unknown_unfold (s : Symbol) :
    s.has_unknown = (s.is_unknown || list_has_unknown s.children) := by
  rw [Symbol.has_unknown, Symbol.subsymbols]
  simp [list_has_unknown]

theorem list_has_unknown_cons (c : Symbol) (cs : List Symbol) :
    list_has_unknown (c :: cs) = (c.has_unknown || list_has_unknown cs) := by
  rw [list_has_unknown, subsymbols_list]
  simp [List.any_append, Symbol.has_unknown, list_has_unknown]

theorem list_has_unknown_nil : list_has_unknown [] = false := by
  rw [list_has_unknown, subsymbols_list]
  rfl

theorem has_unknown_not_constant_aux :
    ∀ (n : Nat) (s : Symbol), s.size ≤ n → s.has_unknown = true →
      s.is_constant = false := by
  intro n
  induction n using Nat.strong_induction_on with
  | _ n ih =>
    intro s hs h
    have hlist : ∀ ss : List Symbol, size_list ss < s.size →
        list_has_unknown ss = true → all_constant ss = false := by
      intro ss
      induction ss with
      | nil => intro _ hh; rw [list_has_unknown_nil] at hh; cases hh
      | cons c cs ihl =>
        intro hsz hh
        rw [list_has_unknown_cons] at hh
        rcases Bool.or_eq_true_iff.mp hh with hc | hcs
        · have hclt : c.size < n := by
            have h1 : c.size ≤ size_list (c :: cs) := by simp only [size_list]; omega
            omega
          have := ih c.size hclt c (Nat.le_refl _) hc
          simp [all_constant, this]
        · have hsz2 : size_list cs < s.size := by
            have := size_pos c
            simp only [size_list] at hsz
            omega
          have := ihl hsz2 hcs
          simp [all_constant, this]
    rw [has_unknown_unfold] at h
    cases s with
    | Scalar i v => simp [Symbol.is_unknown, Symbol.children, list_has_unknown_nil] at h
    | Matrix i v => simp [Symbol.is_unknown, Symbol.children, list_has_unknown_nil] at h
    | StateVector i mask => rfl
    | Time i => rfl
    | InputParameterNode i p => rfl
    | UnknownKind i k => rfl
    | Multiplication i l r =>
      simp only [Symbol.is_unknown, Bool.false_or, Symbol.children] at h
      have := hlist [l, r] (size_list_children (Symbol.Multiplication i l r)) h
      simp only [all_constant, Bool.and_true] at this
      simpa [Symbol.is_constant] using this
    | Division i l r =>
      simp only [Symbol.is_unknown, Bool.false_or, Symbol.children] at h
      have := hlist [l, r] (size_list_children (Symbol.Division i l r)) h
      simp only [all_constant, Bool.and_true] at this
      simpa [Symbol.is_constant] using this
    | Inner i l r =>
      simp only [Symbol.is_unknown, Bool.false_or, Symbol.children] at h
      have := hlist [l, r] (size_list_children (Symbol.Inner i l r)) h
      simp only [all_constant, Bool.and_true] at this
      simpa [Symbol.is_constant] using this
    | Minimum i l r =>
      simp only [Symbol.is_unknown, Bool.false_or, Symbol.children] at h
      have := hlist [l, r] (size_list_children (Symbol.Minimum i l r)) h
      simp only [all_constant, Bool.and_true] at this
      simpa [Symbol.is_constant] using this
    | Maximum i l r =>
      simp only [Symbol.is_unknown, Bool.false_or, Symbol.children] at h
      have := hlist [l, r] (size_list_children (Symbol.Maximum i l r)) h
      simp only [all_constant, Bool.and_true] at this
      simpa [Symbol.is_constant] using this
    | BinaryOp i op l r =>
      simp only [Symbol.is_unknown, Bool.false_or, Symbol.children] at h
      have := hlist [l, r] (size_list_children (Symbol.BinaryOp i op l r)) h
      simp only [all_constant, Bool.and_true] at this
      simpa [Symbol.is_constant] using this
    | IndexOp i a b c =>
      simp only [Symbol.is_unknown, Bool.false_or, Symbol.children] at h
      have := hlist [c] (size_list_children (Symbol.IndexOp i a b c)) h
      simp only [all_constant, Bool.and_true] at this
      simpa [Symbol.is_constant] using this
    | UnaryOp i op c =>
      simp only [Symbol.is_unknown, Bool.false_or, Symbol.children] at h
      have := hlist [c] (size_list_children (Symbol.UnaryOp i op c)) h
      simp only [all_constant, Bool.and_true] at this
      simpa [Symbol.is_constant] using this
    | UFunc i f args =>
      simp only [Symbol.is_unknown, Bool.false_or, Symbol.children] at h
      exact hlist args (size_list_children (Symbol.UFunc i f args)) h
    | ExternalFunction i f args =>
      simp only [Symbol.is_unknown, Bool.false_or, Symbol.children] at h
      exact hlist args (size_list_children (Symbol.ExternalFunction i f args)) h
    | NumpyConcatenation i cs =>
      simp only [Symbol.is_unknown, Bool.false_or, Symbol.children] at h
      exact hlist cs (size_list_children (Symbol.NumpyConcatenation i cs)) h
    | SparseStack i cs =>
      simp only [Symbol.is_unknown, Bool.false_or, Symbol.children] at h
      exact hlist cs (size_list_children (Symbol.SparseStack i cs)) h
    | DomainConcatenation i np cs csl psl =>
      simp only [Symbol.is_unknown, Bool.false_or, Symbol.children] at h
      exact hlist cs (size_list_children (Symbol.DomainConcatenation i np cs csl psl)) h

theorem has_unknown_not_constant (s : Symbol) :
    s.has_unknown = true → s.is_constant = false :=
  has_unknown_not_constant_aux s.size s (Nat.le_refl _)

theorem list_has_unknown_not_constant (ss : List Symbol) :
    list_has_unknown ss = true → all_constant ss = false := by
  induction ss with
  | nil => intro h; rw [list_has_unknown_nil] at h; cases h
  | cons c cs ih =>
    intro h
    rw [list_has_unknown_cons] at h
    rcases Bool.or_eq_true_iff.mp h with hc | hcs
    · simp [all_constant, has_unknown_not_constant c hc]
    · simp [all_constant, ih hcs]

mutual
theorem find_symbols_unknown_fails (ns : Bool) (s : Symbol) :
    s.has_unknown = true → ∀ t, ∃ e, find_symbols ns s t = Except.error e := by
  intro h t
  rw [find_symbols]
  rw [has_unknown_not_constant s h]
  simp only [Bool.false_eq_true, if_false]
  cases hlist : list_has_unknown s.children with
  | true =>
    obtain ⟨e, he⟩ := find_symbols_list_unknown_fails ns s.children hlist t
    rw [he]
    exact ⟨e, rfl⟩
  | false =>
    have hu : s.is_unknown = true := by
      rw [has_unknown_unfold, hlist] at h
      simpa using h
    cases s with
    | UnknownKind i k =>
      simp only [Symbol.children, find_symbols_list, select_symbol, Symbol.kind_name]
      exact ⟨PyErr.notImplemented k, rfl⟩
    | Scalar i v => simp [Symbol.is_unknown] at hu
    | Matrix i v => simp [Symbol.is_unknown] at hu
    | Multiplication i l r => simp [Symbol.is_unknown] at hu
    | Division i l r => simp [Symbol.is_unknown] at hu
    | Inner i l r => simp [Symbol.is_unknown] at hu
    | Minimum i l r => simp [Symbol.is_unknown] at hu
    | Maximum i l r => simp [Symbol.is_unknown] at hu
    | BinaryOp i op l r => simp [Symbol.is_unknown] at hu
    | IndexOp i a b c => simp [Symbol.is_unknown] at hu
    | UnaryOp i op c => simp [Symbol.is_unknown] at hu
    | UFunc i f args => simp [Symbol.is_unknown] at hu
    | ExternalFunction i f args => simp [Symbol.is_unknown] at hu
    | NumpyConcatenation i cs => simp [Symbol.is_unknown] at hu
    | SparseStack i cs => simp [Symbol.is_unknown] at hu
    | DomainConcatenation i n cs csl psl => simp [Symbol.is_unknown] at hu
    | StateVector i mask => simp [Symbol.is_unknown] at hu
    | Time i => simp [Symbol.is_unknown] at hu
    | InputParameterNode i p => simp [Symbol.is_unknown] at hu
termination_by (s.size, 0)
decreasing_by
  exact Prod.Lex.left _ _ (size_list_children s)
theorem find_symbols_list_unknown_fails (ns : Bool) (ss : List Symbol) :
    list_has_unknown ss = true → ∀ t, ∃ e, find_symbols_list ns ss t = Except.error e := by
  intro h t
  match ss with
  | [] => rw [list_has_unknown_nil] at h; cases h
  | c :: cs =>
    rw [find_symbols_list]
    cases hc : find_symbols ns c t with
    | error e => exact ⟨e, rfl⟩
    | ok t1 =>
      by_cases hcu : c.has_unknown = true
      · obtain ⟨e, he⟩ := find_symbols_unknown_fails ns c hcu t
        rw [hc] at he
        cases he
      · have hcs : list_has_unknown cs = true := by
          rw [list_has_unknown_cons] at h
          rcases Bool.or_eq_true_iff.mp h with hx | hx
          · exact absurd hx hcu
          · exact hx
        exact find_symbols_list_unknown_fails ns cs hcs t1
termination_by (size_list ss, ss.length)
decreasing_by
  · show Prod.Lex _ _ (c.size, 0) (size_list (c :: cs), (c :: cs).length)
    by_cases h : size_list cs = 0
    · have he : c.size = size_list (c :: cs) := by simp [size_list, h]
      rw [he]; exact Prod.Lex.right _ (by simp)
    · exact Prod.Lex.left _ _ (by simp [size_list]; omega)
  · exact Prod.Lex.left _ _ (by have := size_pos c; simp [size_list]; omega)
end

/-- C9: a node whose kind is outside the closed supported set makes the
whole traversal fail: the node itself raises the "not implemented" failure
naming the offending kind, any tree containing such a node (anywhere, next
to siblings that would compile on their own) makes `find_symbols` raise,
and `to_python` consequently never returns constants or generated code for
such a tree. -/
theorem unsupported_kind_fatal (ns : Bool) :
    (∀ i kind t, find_symbols ns (Symbol.UnknownKind i kind) t
        = Except.error (PyErr.notImplemented kind)) ∧
    (∀ s t, s.has_unknown = true → ∃ e, find_symbols ns s t = Except.error e) ∧
    (∀ s, s.has_unknown = true → ∀ out, to_python ns s ≠ Except.ok out) := by
  refine ⟨?_, fun s t h => find_symbols_unknown_fails ns s h t, ?_⟩
  · intro i kind t
    rw [find_symbols]
    simp [Symbol.is_constant, Symbol.children, find_symbols_list, select_symbol,
      Symbol.kind_name]
  · intro s h out hok
    obtain ⟨e, he⟩ := find_symbols_unknown_fails ns s h ⟨[], []⟩
    rw [to_python, he] at hok
    cases hok

/-- C9 witness: a sum whose left sibling (a state-vector slice) would
compile on its own, but whose right sibling is a synthetic kind: the tree
is detected, the synthetic node raises the kind-naming failure, and
`to_python` yields no output for the whole tree. -/
theorem unsupported_kind_fatal_witness :
    (Symbol.BinaryOp 10 "+" (Symbol.StateVector 11 [true])
        (Symbol.UnknownKind 12 "FakeNodeKind")).has_unknown = true ∧
    find_symbols false (Symbol.UnknownKind 12 "FakeNodeKind") ⟨[], []⟩
      = Except.error (PyErr.notImplemented "FakeNodeKind") ∧
    ∀ out, to_python false (Symbol.BinaryOp 10 "+" (Symbol.StateVector 11 [true])
        (Symbol.UnknownKind 12 "FakeNodeKind")) ≠ Except.ok out := by
  have h1 : (Symbol.BinaryOp 10 "+" (Symbol.StateVector 11 [true])
      (Symbol.UnknownKind 12 "FakeNodeKind")).has_unknown = true := by
    rw [has_unknown_unfold]
    simp only [Symbol.children]
    rw [list_has_unknown_cons, list_has_unknown_cons, has_unknown_unfold,
      has_unknown_unfold]
    simp [Symbol.is_unknown, Symbol.children, list_has_unknown_nil]
  exact ⟨h1, (unsupported_kind_fatal false).1 12 "FakeNodeKind" ⟨[], []⟩,
    fun out => (unsupported_kind_fatal false).2.2 _ h1 out⟩

/-! ## The CSE invariant -/

theorem keys_ext_trans {α : Type} {a b c : List α}
    (h1 : ∃ e, b = a ++ e) (h2 : ∃ e, c = b ++ e) : ∃ e, c = a ++ e := by
  obtain ⟨e1, rfl⟩ := h1
  obtain ⟨e2, rfl⟩ := h2
  exact ⟨e1 ++ e2, by simp⟩

theorem mem_keys_ext {α : Type} {a b : List α} (h : ∃ e, b = a ++ e) {x : α}
    (hx : x ∈ a) : x ∈ b := by
  obtain ⟨e, rfl⟩ := h
  exact List.mem_append_left _ hx

theorem select_symbol_consts (ns : Bool) (s : Symbol) (cv : List String)
    (consts : List (Nat × ConstVal)) (out : String × List (Nat × ConstVal))
    (h : select_symbol ns s cv consts = Except.ok out) :
    (∃ ext, out.2.map Prod.fst = consts.map Prod.fst ++ ext) ∧
    ((consts.map Prod.fst).Nodup → (out.2.map Prod.fst).Nodup) := by
  cases s <;>
    simp only [select_symbol] at h <;>
    (repeat' split at h) <;>
    (try exact Except.noConfusion h) <;>
    (cases h) <;>
    first
      | exact ⟨⟨[], by simp⟩, fun hn => hn⟩
      | exact ⟨upsert_keys_ext _ _ _, fun hn => upsert_nodup _ _ _ hn⟩

mutual
theorem find_symbols_keys (ns : Bool) (s : Symbol) (t : Tables) :
    ∀ t', find_symbols ns s t = Except.ok t' →
      (∃ ext, t'.variable_symbols.map Prod.fst
          = t.variable_symbols.map Prod.fst ++ ext) ∧
      (∃ ext, t'.constant_symbols.map Prod.fst
          = t.constant_symbols.map Prod.fst ++ ext) ∧
      ((t.variable_symbols.map Prod.fst).Nodup →
        (t'.variable_symbols.map Prod.fst).Nodup) ∧
      ((t.constant_symbols.map Prod.fst).Nodup →
        (t'.constant_symbols.map Prod.fst).Nodup) ∧
      (s.is_constant = false → s.id ∈ t'.variable_symbols.map Prod.fst) := by
  intro t' h
  rw [find_symbols] at h
  by_cases hc : s.is_constant
  · rw [if_pos hc] at h
    have hcl : (s.is_constant = false → s.id ∈ t'.variable_symbols.map Prod.fst) := by
      intro hf; rw [hc] at hf; cases hf
    split at h <;> [skip; split at h; skip]
    · cases h
      exact ⟨⟨[], by simp⟩, ⟨[], by simp⟩, fun x => x, fun x => x, hcl⟩
    · cases h
      exact ⟨⟨[], by simp⟩, upsert_keys_ext _ _ _, fun x => x,
        fun hn => upsert_nodup _ _ _ hn, hcl⟩
    · cases h
      exact ⟨⟨[], by simp⟩, upsert_keys_ext _ _ _, fun x => x,
        fun hn => upsert_nodup _ _ _ hn, hcl⟩
    · cases h
      exact ⟨⟨[], by simp⟩, upsert_keys_ext _ _ _, fun x => x,
        fun hn => upsert_nodup _ _ _ hn, hcl⟩
  · rw [if_neg hc] at h
    cases hl : find_symbols_list ns s.children t with
    | error e => rw [hl] at h; cases h
    | ok t1 =>
      rw [hl] at h
      dsimp only at h
      cases hsel : select_symbol ns s (s.children.map child_var) t1.constant_symbols with
      | error e => rw [hsel] at h; cases h
      | ok p =>
        rw [hsel] at h
        cases h
        have hlist := find_symbols_list_keys ns s.children t t1 hl
        have hselc := select_symbol_consts ns s _ _ p hsel
        refine ⟨?_, ?_, ?_, ?_, ?_⟩
        · exact keys_ext_trans hlist.1 (upsert_keys_ext _ _ _)
        · exact keys_ext_trans hlist.2.1 hselc.1
        · intro hn
          exact upsert_nodup _ _ _ (hlist.2.2.1 hn)
        · intro hn
          exact hselc.2 (hlist.2.2.2 hn)
        · intro _
          exact upsert_key_mem _ _ _
termination_by (s.size, 0)
decreasing_by
  exact Prod.Lex.left _ _ (size_list_children s)
theorem find_symbols_list_keys (ns : Bool) (ss : List Symbol) (t : Tables) :
    ∀ t', find_symbols_list ns ss t = Except.ok t' →
      (∃ ext, t'.variable_symbols.map Prod.fst
          = t.variable_symbols.map Prod.fst ++ ext) ∧
      (∃ ext, t'.constant_symbols.map Prod.fst
          = t.constant_symbols.map Prod.fst ++ ext) ∧
      ((t.variable_symbols.map Prod.fst).Nodup →
        (t'.variable_symbols.map Prod.fst).Nodup) ∧
      ((t.constant_symbols.map Prod.fst).Nodup →
        (t'.constant_symbols.map Prod.fst).Nodup) := by
  intro t' h
  match ss with
  | [] =>
    rw [find_symbols_list] at h
    cases h
    exact ⟨⟨[], by simp⟩, ⟨[], by simp⟩, fun x => x, fun x => x⟩
  | c :: cs =>
    rw [find_symbols_list] at h
    cases hcr : find_symbols ns c t with
    | error e => rw [hcr] at h; cases h
    | ok t1 =>
      rw [hcr] at h
      dsimp only at h
      have h1 := find_symbols_keys ns c t t1 hcr
      have h2 := find_symbols_list_keys ns cs t1 t' h
      exact ⟨keys_ext_trans h1.1 h2.1, keys_ext_trans h1.2.1 h2.2.1,
        fun hn => h2.2.2.1 (h1.2.2.1 hn), fun hn => h2.2.2.2 (h1.2.2.2.1 hn)⟩
termination_by (size_list ss, ss.length)
decreasing_by
  · show Prod.Lex _ _ (c.size, 0) (size_list (c :: cs), (c :: cs).length)
    by_cases h : size_list cs = 0
    · have he : c.size = size_list (c :: cs) := by simp [size_list, h]
      rw [he]; exact Prod.Lex.right _ (by simp)
    · exact Prod.Lex.left _ _ (by simp [size_list]; omega)
  · exact Prod.Lex.left _ _ (by have := size_pos c; simp [size_list]; omega)
end

theorem is_constant_subsymbols_aux :
    ∀ (n : Nat) (s : Symbol), s.size ≤ n → s.is_constant = true →
      ∀ u ∈ s.subsymbols, u.is_constant = true := by
  intro n
  induction n using Nat.strong_induction_on with
  | _ n ih =>
    intro s hs hc u hu
    have hlist : ∀ kids : List Symbol, size_list kids < s.size →
        all_constant kids = true →
        ∀ u2 ∈ subsymbols_list kids, u2.is_constant = true := by
      intro kids
      induction kids with
      | nil =>
        intro _ _ u2 hu2
        rw [subsymbols_list] at hu2
        cases hu2
      | cons c cs ihl =>
        intro hsz hkids u2 hu2
        rw [subsymbols_list] at hu2
        simp only [all_constant, Bool.and_eq_true] at hkids
        rcases List.mem_append.mp hu2 with hu2 | hu2
        · have hclt : c.size < n := by
            have h1 : c.size ≤ size_list (c :: cs) := by simp only [size_list]; omega
            omega
          exact ih c.size hclt c (Nat.le_refl _) hkids.1 u2 hu2
        · have hsz2 : size_list cs < s.size := by
            have := size_pos c
            simp only [size_list] at hsz
            omega
          exact ihl hsz2 hkids.2 u2 hu2
    rw [Symbol.subsymbols] at hu
    rcases List.mem_cons.mp hu with hu | hu
    · rw [hu]; exact hc
    · have hkids : all_constant s.children = true := by
        cases s <;> simp [Symbol.is_constant, Symbol.children, all_constant] at hc ⊢ <;>
          simp [hc]
      exact hlist s.children (size_list_children s) hkids u hu

theorem is_constant_subsymbols (s : Symbol) (hc : s.is_constant = true) :
    ∀ u ∈ s.subsymbols, u.is_constant = true :=
  is_constant_subsymbols_aux s.size s (Nat.le_refl _) hc

mutual
theorem find_symbols_coverage (ns : Bool) (s : Symbol) (t : Tables) :
    ∀ t', find_symbols ns s t = Except.ok t' →
      ∀ u ∈ s.subsymbols, u.is_constant = false →
        u.id ∈ t'.variable_symbols.map Prod.fst := by
  intro t' h u hu huc
  by_cases hc : s.is_constant
  · exact absurd (is_constant_subsymbols s hc u hu) (by rw [huc]; simp)
  · rw [find_symbols, if_neg hc] at h
    cases hl : find_symbols_list ns s.children t with
    | error e => rw [hl] at h; cases h
    | ok t1 =>
      rw [hl] at h
      dsimp only at h
      cases hsel : select_symbol ns s (s.children.map child_var) t1.constant_symbols with
      | error e => rw [hsel] at h; cases h
      | ok p =>
        rw [hsel] at h
        cases h
        rw [Symbol.subsymbols] at hu
        rcases List.mem_cons.mp hu with hu | hu
        · rw [hu]
          exact upsert_key_mem _ _ _
        · have hmem := find_symbols_list_coverage ns s.children t t1 hl u hu huc
          exact mem_keys_ext (upsert_keys_ext _ _ _) hmem
termination_by (s.size, 0)
decreasing_by
  exact Prod.Lex.left _ _ (size_list_children s)
theorem find_symbols_list_coverage (ns : Bool) (ss : List Symbol) (t : Tables) :
    ∀ t', find_symbols_list ns ss t = Except.ok t' →
      ∀ u ∈ subsymbols_list ss, u.is_constant = false →
        u.id ∈ t'.variable_symbols.map Prod.fst := by
  intro t' h u hu huc
  match ss with
  | [] =>
    rw [subsymbols_list] at hu
    cases hu
  | c :: cs =>
    rw [find_symbols_list] at h
    cases hcr : find_symbols ns c t with
    | error e => rw [hcr] at h; cases h
    | ok t1 =>
      rw [hcr] at h
      dsimp only at h
      rw [subsymbols_list] at hu
      rcases List.mem_append.mp hu with hu | hu
      · have hmem := find_symbols_coverage ns c t t1 hcr u hu huc
        exact mem_keys_ext (find_symbols_list_keys ns cs t1 t' h).1 hmem
      · exact find_symbols_list_coverage ns cs t1 t' h u hu huc
termination_by (size_list ss, ss.length)
decreasing_by
  · show Prod.Lex _ _ (c.size, 0) (size_list (c :: cs), (c :: cs).length)
    by_cases h : size_list cs = 0
    · have he : c.size = size_list (c :: cs) := by simp [size_list, h]
      rw [he]; exact Prod.Lex.right _ (by simp)
    · exact Prod.Lex.left _ _ (by simp [size_list]; omega)
  · exact Prod.Lex.left _ _ (by have := size_pos c; simp [size_list]; omega)
end

/-- C4: the common-subexpression-elimination guarantee of `find_symbols`.
Every call only appends new keys to the variable table (an id that is
already present keeps its first-encounter position — re-assignment of an
`OrderedDict` key updates in place) and preserves key distinctness; and for
a traversal from empty tables, the final variable table has pairwise
distinct keys, every non-constant subtree occurrence — however many parent
positions reference it — owns exactly one entry keyed by its id, and every
parent references it through the one name `id_to_python_variable` derives
from that id, so all references resolve to that single entry. -/
theorem cse_unique_fragment (ns : Bool) (s : Symbol) :
    (∀ t t', find_symbols ns s t = Except.ok t' →
      (∃ ext, t'.variable_symbols.map Prod.fst
          = t.variable_symbols.map Prod.fst ++ ext) ∧
      ((t.variable_symbols.map Prod.fst).Nodup →
        (t'.variable_symbols.map Prod.fst).Nodup)) ∧
    (∀ tabs, find_symbols ns s ⟨[], []⟩ = Except.ok tabs →
      (tabs.variable_symbols.map Prod.fst).Nodup ∧
      ∀ u ∈ s.subsymbols, u.is_constant = false →
        (tabs.variable_symbols.map Prod.fst).count u.id = 1 ∧
        child_var u = id_to_python_variable u.id false) := by
  constructor
  · intro t t' h
    have hk := find_symbols_keys ns s t t' h
    exact ⟨hk.1, hk.2.2.1⟩
  · intro tabs h
    have hk := find_symbols_keys ns s ⟨[], []⟩ tabs h
    have hnd : (tabs.variable_symbols.map Prod.fst).Nodup := hk.2.2.1 (by simp)
    refine ⟨hnd, ?_⟩
    intro u hu huc
    have hmem := find_symbols_coverage ns s ⟨[], []⟩ tabs h u hu huc
    constructor
    · exact List.count_eq_one_of_mem hnd hmem
    · simp [child_var, huc]

/-- C4 witness: the subtree `StateVector 21` is referenced at two parent
positions of a sum; the traversal succeeds, its id owns exactly one entry
of the fragment table, and both parents reference it as `var_00021`. -/
theorem cse_unique_fragment_witness :
    find_symbols false
      (Symbol.BinaryOp 23 "+" (Symbol.StateVector 21 [true])
        (Symbol.UnaryOp 22 "-" (Symbol.StateVector 21 [true]))) ⟨[], []⟩
      = Except.ok ⟨[],
          [(21, "y[0:1]"), (22, "-var_00021"), (23, "var_00021 + var_00022")]⟩ ∧
    ([(21 : Nat), 22, 23].count 21 = 1 ∧
      child_var (Symbol.StateVector 21 [true])
        = id_to_python_variable 21 false) := by
  have hrun : find_symbols false
      (Symbol.BinaryOp 23 "+" (Symbol.StateVector 21 [true])
        (Symbol.UnaryOp 22 "-" (Symbol.StateVector 21 [true]))) ⟨[], []⟩
      = Except.ok ⟨[],
          [(21, "y[0:1]"), (22, "-var_00021"), (23, "var_00021 + var_00022")]⟩ := by
    simp only [find_symbols, find_symbols_list, select_symbol, Symbol.is_constant,
      all_constant, Symbol.evaluate, Symbol.children, child_var, Symbol.id,
      mask_indices, consecutive, upsert, Symbol.shape_sparse, PyValue.issparse,
      id_to_python_variable, pad5]
    decide
  have hsub : Symbol.StateVector 21 [true] ∈
      (Symbol.BinaryOp 23 "+" (Symbol.StateVector 21 [true])
        (Symbol.UnaryOp 22 "-" (Symbol.StateVector 21 [true]))).subsymbols := by
    rw [Symbol.subsymbols]
    simp only [Symbol.children]
    rw [subsymbols_list, subsymbols_list, Symbol.subsymbols]
    simp
  have hmain := (cse_unique_fragment false
    (Symbol.BinaryOp 23 "+" (Symbol.StateVector 21 [true])
      (Symbol.UnaryOp 22 "-" (Symbol.StateVector 21 [true])))).2
    ⟨[], [(21, "y[0:1]"), (22, "-var_00021"), (23, "var_00021 + var_00022")]⟩
    hrun
  have hone := hmain.2 (Symbol.StateVector 21 [true]) hsub rfl
  exact ⟨hrun, by simpa [Symbol.id] using hone.1, by simpa [Symbol.id] using hone.2⟩

/-! ## The evaluator objects -/

/-- The `y` argument of `evaluate`: a one-dimensional array of length `n`
(`ndim == 1`) or a two-dimensional array. -/
inductive YArg where
  | vec (v : List Int)
  | mat (m : List (List Int))
deriving Repr, DecidableEq

/-- Shallow embedding of the reshape guard shared by
`EvaluatorPython.evaluate`, `EvaluatorJax.evaluate` and
`EvaluatorJaxJacobian.evaluate` (evaluate.py lines 383-384, 556-557,
578-579): `if y is not None and y.ndim == 1: y = y.reshape(-1, 1)`. -/
def reshape_column : Option YArg → Option YArg
  | some (.vec v) => some (.mat (v.map fun x => [x]))
  | y => y

/-- The result of an `evaluate` call: the bare result, or the
`(result, known_evals)` pair returned when `known_evals` was supplied
(evaluate.py lines 388-392). -/
inductive EvalResult where
  | plain (v : PyValue)
  | withKnown (v : PyValue)
deriving Repr, DecidableEq

/-- Shallow embedding of an `EvaluatorPython` instance (evaluate.py lines
320-392): the compiled function body is the `body` field, closed over the
extracted constant list. -/
structure EvaluatorPython where
  constants : List ConstVal
  body : List ConstVal → Option Int → Option YArg → Option YArg → PyInputs → PyValue

/-- Shallow embedding of `EvaluatorPython.evaluate` (evaluate.py lines
378-392): reshape a one-dimensional `y` to a column, run the compiled body,
and reproduce the `known_evals` tuple convention. -/
def EvaluatorPython.evaluate (e : EvaluatorPython) (t : Option Int) (y : Option YArg)
    (y_dot : Option YArg) (inputs : PyInputs) (known_evals : Option Unit) : EvalResult :=
  let y := reshape_column y
  let result := e.body e.constants t y y_dot inputs
  match known_evals with
  | some _ => EvalResult.withKnown result
  | Option.none => EvalResult.plain result

/-- Shallow embedding of an `EvaluatorJax` instance (evaluate.py lines
457-565): the jit-compiled body `self._jit_evaluate` is the
`jit_evaluate` field, closed over the device-resident constant list. -/
structure EvaluatorJax where
  constants : List ConstVal
  jit_evaluate : List ConstVal → Option Int → Option YArg → Option YArg → PyInputs → PyValue

/-- Shallow embedding of `EvaluatorJax.evaluate` (evaluate.py lines
551-565): identical reshape guard and `known_evals` convention around the
jit-compiled body. -/
def EvaluatorJax.evaluate (e : EvaluatorJax) (t : Option Int) (y : Option YArg)
    (y_dot : Option YArg) (inputs : PyInputs) (known_evals : Option Unit) : EvalResult :=
  let y := reshape_column y
  let result := e.jit_evaluate e.constants t y y_dot inputs
  match known_evals with
  | some _ => EvalResult.withKnown result
  | Option.none => EvalResult.plain result

/-- C10: for both evaluator classes, calling `evaluate` with a
one-dimensional `y` of length `n` first reshapes it to the `(n, 1)` column
`v.map (fun x => [x])` and then runs the compiled body, so the call returns
exactly what the same call with the column-shaped `y` returns. -/
theorem evaluate_reshapes_column (e : EvaluatorPython) (ej : EvaluatorJax)
    (t : Option Int) (v : List Int) (y_dot : Option YArg) (inputs : PyInputs)
    (known_evals : Option Unit) :
    e.evaluate t (some (YArg.vec v)) y_dot inputs known_evals
      = e.evaluate t (some (YArg.mat (v.map fun x => [x]))) y_dot inputs known_evals ∧
    ej.evaluate t (some (YArg.vec v)) y_dot inputs known_evals
      = ej.evaluate t (some (YArg.mat (v.map fun x => [x]))) y_dot inputs known_evals := by
  exact ⟨rfl, rfl⟩

/-! ## Backend B: the inlining pass of `get_julia_function` -/

/-- Tokens of a generated Julia fragment line (evaluate_julia.py).  A line is
a sequence of tokens: `cache_XXXXX` reference names, the `@view` marker, the
elementwise operators `.+ .- .* ./`, the matrix-multiplication infix
`" * "`, the `mul!` marker, and arbitrary other text.  The Python substring
tests (`" * " in line`, `"@view" in line`, `"mul!" in line`, ...) and
`line.replace(name, expr)` of the source correspond to token membership and
token splicing, because in the generated lines these marker substrings and
the zero-padded reference names never overlap one another. -/
inductive JTok where
  | name (id : Nat)
  | view
  | dotPlus
  | dotMinus
  | dotTimes
  | dotDiv
  | matmul
  | mulBang
  | other (s : String)
deriving Repr, DecidableEq

/-- Python's substring test `tok in line` at the token level. -/
def has_tok (t : JTok) (l : List JTok) : Bool := decide (t ∈ l)

/-- Python's `line.replace(cache_name_i, repl)` at the token level: every
occurrence of the reference name `i` is replaced by the token sequence
`repl`. -/
def subst_name (i : Nat) (repl : List JTok) (l : List JTok) : List JTok :=
  l.flatMap fun tok => if tok = JTok.name i then repl else [tok]

/-- The trivial-fragment test of the pass (evaluate_julia.py line 316 and
327): the line contains one of `@view`, `.+`, `.-`, `.*`, `./`. -/
def inlineable_line (l : List JTok) : Bool :=
  has_tok JTok.view l || has_tok JTok.dotPlus l || has_tok JTok.dotMinus l ||
    has_tok JTok.dotTimes l || has_tok JTok.dotDiv l

/-- `symbol_line.replace(" * ", ", ")` (evaluate_julia.py line 323): the
matrix-multiplication infix becomes the argument separator of `mul!`. -/
def to_mul_args (l : List JTok) : List JTok :=
  l.map fun tok => if tok = JTok.matmul then JTok.other ", " else tok

/-- A statement emitted by the pass: an in-place multiply-into
`mul!(cache_target, args)` or an in-place assignment
`cache_target .= rhs`. -/
inductive JStmt where
  | mul (target : Nat) (args : List JTok)
  | assign (target : Nat) (rhs : List JTok)
deriving Repr, DecidableEq

/-- The cache slot a statement writes. -/
def JStmt.target : JStmt → Nat
  | .mul t _ => t
  | .assign t _ => t

/-- The right-hand side / argument tokens of a statement. -/
def JStmt.line : JStmt → List JTok
  | .mul _ args => args
  | .assign _ rhs => rhs

/-- Shallow embedding of the statement-generation loop of
`get_julia_function` (evaluate_julia.py lines 313-336).  Fragments are
popped oldest-first (`popitem(last=False)`).  A line containing the
matrix-multiplication infix is rewritten into a `mul!` statement against
its own cache slot.  Otherwise, a line containing an inlineable marker is
not emitted: every remaining fragment value is rewritten, substituting this
line for the fragment's reference name — except a value containing `mul!`
when the line is not a view (the source's guard
`not ("mul!" in value and not "@view" in symbol_line)`).  Every other line
is emitted as an in-place assignment. -/
def inline_pass (fs : List (Nat × List JTok)) : List JStmt :=
  match fs with
  | [] => []
  | (i, line) :: rest =>
    if has_tok JTok.matmul line then
      JStmt.mul i (to_mul_args line) :: inline_pass rest
    else if inlineable_line line then
      inline_pass (rest.map fun kv =>
        if has_tok JTok.mulBang kv.2 && ! has_tok JTok.view line then kv
        else (kv.1, subst_name i line kv.2))
    else
      JStmt.assign i line :: inline_pass rest
termination_by fs.length
decreasing_by
  · simp
  · simp
  · simp

theorem has_tok_subst_of (i : Nat) (repl l : List JTok) (tok : JTok)
    (hne : tok ≠ JTok.name i) (h : has_tok tok l = true) :
    has_tok tok (subst_name i repl l) = true := by
  simp only [has_tok, decide_eq_true_eq] at h ⊢
  simp only [subst_name, List.mem_flatMap]
  exact ⟨tok, h, by simp [hne]⟩

theorem has_tok_subst_cases (i : Nat) (repl l : List JTok) (tok : JTok)
    (h : has_tok tok (subst_name i repl l) = true) :
    has_tok tok l = true ∨ has_tok tok repl = true := by
  simp only [has_tok, decide_eq_true_eq] at h ⊢
  simp only [subst_name, List.mem_flatMap] at h
  obtain ⟨x, hx, hmem⟩ := h
  by_cases hxi : x = JTok.name i
  · rw [if_pos hxi] at hmem
    exact Or.inr hmem
  · rw [if_neg hxi] at hmem
    simp only [List.mem_singleton] at hmem
    exact Or.inl (hmem ▸ hx)

theorem has_tok_subst_name_cases (i j : Nat) (repl l : List JTok)
    (h : has_tok (JTok.name j) (subst_name i repl l) = true) :
    has_tok (JTok.name j) repl = true ∨
      (has_tok (JTok.name j) l = true ∧ j ≠ i) := by
  simp only [has_tok, decide_eq_true_eq] at h ⊢
  simp only [subst_name, List.mem_flatMap] at h
  obtain ⟨x, hx, hmem⟩ := h
  by_cases hxi : x = JTok.name i
  · rw [if_pos hxi] at hmem
    exact Or.inl hmem
  · rw [if_neg hxi] at hmem
    simp only [List.mem_singleton] at hmem
    refine Or.inr ⟨hmem ▸ hx, ?_⟩
    intro hji
    exact hxi (by rw [← hmem, hji])

theorem has_tok_subst_self (i : Nat) (repl l : List JTok)
    (h : has_tok (JTok.name i) repl = false) :
    has_tok (JTok.name i) (subst_name i repl l) = false := by
  cases hres : has_tok (JTok.name i) (subst_name i repl l) with
  | false => rfl
  | true =>
    rcases has_tok_subst_name_cases i i repl l hres with hh | hh
    · rw [h] at hh; cases hh
    · exact absurd rfl hh.2

theorem inlineable_subst (i : Nat) (repl l : List JTok)
    (h : inlineable_line l = true) : inlineable_line (subst_name i repl l) = true := by
  simp only [inlineable_line, Bool.or_eq_true] at h ⊢
  rcases h with ((((h | h) | h) | h) | h)
  · exact Or.inl (Or.inl (Or.inl (Or.inl (has_tok_subst_of i repl l _ (by simp) h))))
  · exact Or.inl (Or.inl (Or.inl (Or.inr (has_tok_subst_of i repl l _ (by simp) h))))
  · exact Or.inl (Or.inl (Or.inr (has_tok_subst_of i repl l _ (by simp) h)))
  · exact Or.inl (Or.inr (has_tok_subst_of i repl l _ (by simp) h))
  · exact Or.inr (has_tok_subst_of i repl l _ (by simp) h)

theorem has_tok_to_mul_args (j : Nat) (l : List JTok) :
    has_tok (JTok.name j) (to_mul_args l) = has_tok (JTok.name j) l := by
  simp only [has_tok, to_mul_args, decide_eq_decide, List.mem_map]
  constructor
  · rintro ⟨x, hx, hfx⟩
    by_cases hxm : x = JTok.matmul
    · rw [if_pos hxm] at hfx; cases hfx
    · rw [if_neg hxm] at hfx; exact hfx ▸ hx
  · intro hmem
    refine ⟨JTok.name j, hmem, ?_⟩
    simp

theorem inline_pass_keys_map (f : Nat × List JTok → Nat × List JTok)
    (hf : ∀ kv, (f kv).1 = kv.1) (rest : List (Nat × List JTok)) :
    (rest.map f).map Prod.fst = rest.map Prod.fst := by
  induction rest with
  | nil => rfl
  | cons kv rest ih => simp [ih, hf kv]

theorem inline_pass_targets_aux :
    ∀ (n : Nat) (fs : List (Nat × List JTok)), fs.length ≤ n →
      ∀ st ∈ inline_pass fs, st.target ∈ fs.map Prod.fst := by
  intro n
  induction n with
  | zero =>
    intro fs hlen st hst
    rw [List.length_eq_zero.mp (Nat.le_zero.mp hlen)] at hst
    rw [inline_pass] at hst
    cases hst
  | succ n ih =>
    intro fs hlen st hst
    match fs with
    | [] => rw [inline_pass] at hst; cases hst
    | (i, line) :: rest =>
      rw [inline_pass] at hst
      simp only [List.length_cons, Nat.add_le_add_iff_right] at hlen
      split at hst
      · rcases List.mem_cons.mp hst with hst | hst
        · rw [hst]; exact List.mem_cons_self _ _
        · exact List.mem_cons_of_mem _ (ih rest hlen st hst)
      · split at hst
        · have := ih _ (by simpa using hlen) st hst
          rw [inline_pass_keys_map _ (fun kv => by split <;> rfl)] at this
          exact List.mem_cons_of_mem _ this
        · rcases List.mem_cons.mp hst with hst | hst
          · rw [hst]; exact List.mem_cons_self _ _
          · exact List.mem_cons_of_mem _ (ih rest hlen st hst)

theorem inline_pass_no_ref_aux :
    ∀ (n j : Nat) (fs : List (Nat × List JTok)), fs.length ≤ n →
      (∀ p ∈ fs, has_tok (JTok.name j) p.2 = false) →
      ∀ st ∈ inline_pass fs, has_tok (JTok.name j) st.line = false := by
  intro n
  induction n with
  | zero =>
    intro j fs hlen habs st hst
    rw [List.length_eq_zero.mp (Nat.le_zero.mp hlen)] at hst
    rw [inline_pass] at hst
    cases hst
  | succ n ih =>
    intro j fs hlen habs st hst
    match fs with
    | [] => rw [inline_pass] at hst; cases hst
    | (i, line) :: rest =>
      rw [inline_pass] at hst
      simp only [List.length_cons, Nat.add_le_add_iff_right] at hlen
      have hline : has_tok (JTok.name j) line = false :=
        habs (i, line) (List.mem_cons_self _ _)
      have habs_rest : ∀ p ∈ rest, has_tok (JTok.name j) p.2 = false :=
        fun p hp => habs p (List.mem_cons_of_mem _ hp)
      split at hst
      · rcases List.mem_cons.mp hst with hst | hst
        · rw [hst, JStmt.line, has_tok_to_mul_args]
          exact hline
        · exact ih j rest hlen habs_rest st hst
      · split at hst
        · refine ih j _ (by simpa using hlen) ?_ st hst
          intro q hq
          obtain ⟨kv, hkv, rfl⟩ := List.mem_map.mp hq
          split
          · exact habs_rest kv hkv
          · cases hres : has_tok (JTok.name j) (subst_name i line kv.2) with
            | false => rfl
            | true =>
              rcases has_tok_subst_cases i line kv.2 _ hres with hh | hh
              · rw [habs_rest kv hkv] at hh; cases hh
              · rw [hline] at hh; cases hh
        · rcases List.mem_cons.mp hst with hst | hst
          · rw [hst, JStmt.line]
            exact hline
          · exact ih j rest hlen habs_rest st hst

theorem inline_pass_mul_aux :
    ∀ (n : Nat) (fs : List (Nat × List JTok)), fs.length ≤ n →
      ∀ p ∈ fs, has_tok JTok.matmul p.2 = true →
        ∃ args, JStmt.mul p.1 args ∈ inline_pass fs := by
  intro n
  induction n with
  | zero =>
    intro fs hlen p hp _
    rw [List.length_eq_zero.mp (Nat.le_zero.mp hlen)] at hp
    cases hp
  | succ n ih =>
    intro fs hlen p hp hpm
    match fs with
    | [] => cases hp
    | (i, line) :: rest =>
      rw [inline_pass]
      simp only [List.length_cons, Nat.add_le_add_iff_right] at hlen
      rcases List.mem_cons.mp hp with hp | hp
      · have hm : has_tok JTok.matmul line = true := by
          rw [hp] at hpm; exact hpm
        rw [if_pos hm]
        refine ⟨to_mul_args line, ?_⟩
        rw [hp]
        exact List.mem_cons_self _ _
      · by_cases hm : has_tok JTok.matmul line = true
        · rw [if_pos hm]
          obtain ⟨args, hargs⟩ := ih rest hlen p hp hpm
          exact ⟨args, List.mem_cons_of_mem _ hargs⟩
        · rw [if_neg hm]
          by_cases htriv : inlineable_line line = true
          · rw [if_pos htriv]
            have hmline : has_tok JTok.matmul line = false := by
              cases hx : has_tok JTok.matmul line
              · rfl
              · exact absurd hx hm
            obtain ⟨args, hargs⟩ := ih
              (rest.map fun kv =>
                if has_tok JTok.mulBang kv.2 && ! has_tok JTok.view line then kv
                else (kv.1, subst_name i line kv.2))
              (by simpa using hlen)
              (if has_tok JTok.mulBang p.2 && ! has_tok JTok.view line then p
                else (p.1, subst_name i line p.2))
              (List.mem_map.mpr ⟨p, hp, rfl⟩)
              (by
                split
                · exact hpm
                · show has_tok JTok.matmul (subst_name i line p.2) = true
                  exact has_tok_subst_of i line p.2 _ (by simp) hpm)
            refine ⟨args, ?_⟩
            have htarget :
                (if has_tok JTok.mulBang p.2 && ! has_tok JTok.view line then p
                  else (p.1, subst_name i line p.2)).1 = p.1 := by
              split <;> rfl
            rw [htarget] at hargs
            exact hargs
          · rw [if_neg htriv]
            obtain ⟨args, hargs⟩ := ih rest hlen p hp hpm
            exact ⟨args, List.mem_cons_of_mem _ hargs⟩

theorem inline_pass_triv_aux :
    ∀ (n : Nat) (fs : List (Nat × List JTok)), fs.length ≤ n →
      (fs.map Prod.fst).Nodup →
      ∀ p ∈ fs, has_tok JTok.matmul p.2 = false → inlineable_line p.2 = true →
        ∀ st ∈ inline_pass fs, st.target ≠ p.1 := by
  intro n
  induction n with
  | zero =>
    intro fs hlen _ p hp
    rw [List.length_eq_zero.mp (Nat.le_zero.mp hlen)] at hp
    cases hp
  | succ n ih =>
    intro fs hlen hnd p hp hpm hpt st hst
    match fs with
    | [] => cases hp
    | (i, line) :: rest =>
      rw [inline_pass] at hst
      simp only [List.length_cons, Nat.add_le_add_iff_right] at hlen
      simp only [List.map_cons, List.nodup_cons] at hnd
      rcases List.mem_cons.mp hp with hp | hp
      · have hline_m : has_tok JTok.matmul line = false := by
          rw [hp] at hpm; exact hpm
        have hline_t : inlineable_line line = true := by
          rw [hp] at hpt; exact hpt
        rw [if_neg (by rw [hline_m]; simp), if_pos hline_t] at hst
        have htar := inline_pass_targets_aux _ _ (Nat.le_refl _) st hst
        rw [inline_pass_keys_map _ (fun kv => by split <;> rfl)] at htar
        intro hcon
        rw [hp] at hcon
        have hcon2 : st.target = i := hcon
        rw [hcon2] at htar
        exact hnd.1 htar
      · have hne : i ≠ p.1 := by
          intro hcon
          exact hnd.1 (by rw [hcon]; exact List.mem_map.mpr ⟨p, hp, rfl⟩)
        by_cases hm : has_tok JTok.matmul line = true
        · rw [if_pos hm] at hst
          rcases List.mem_cons.mp hst with hst | hst
          · rw [hst]; exact hne
          · exact ih rest hlen hnd.2 p hp hpm hpt st hst
        · rw [if_neg hm] at hst
          have hlm : has_tok JTok.matmul line = false := by
            cases hx : has_tok JTok.matmul line
            · rfl
            · exact absurd hx hm
          by_cases htriv : inlineable_line line = true
          · rw [if_pos htriv] at hst
            have hmapped_nd :
                ((rest.map fun kv =>
                  if has_tok JTok.mulBang kv.2 && ! has_tok JTok.view line then kv
                  else (kv.1, subst_name i line kv.2)).map Prod.fst).Nodup := by
              rw [inline_pass_keys_map _ (fun kv => by split <;> rfl)]
              exact hnd.2
            have hres := ih _ (by simpa using hlen) hmapped_nd
              (if has_tok JTok.mulBang p.2 && ! has_tok JTok.view line then p
                else (p.1, subst_name i line p.2))
              (List.mem_map.mpr ⟨p, hp, rfl⟩)
              (by
                split
                · exact hpm
                · show has_tok JTok.matmul (subst_name i line p.2) = false
                  cases hres2 : has_tok JTok.matmul (subst_name i line p.2) with
                  | false => rfl
                  | true =>
                    rcases has_tok_subst_cases i line p.2 _ hres2 with hh | hh
                    · rw [hpm] at hh; cases hh
                    · rw [hlm] at hh; cases hh)
              (by
                split
                · exact hpt
                · exact inlineable_subst i line p.2 hpt)
              st hst
            intro hcon
            apply hres
            have htarget :
                (if has_tok JTok.mulBang p.2 && ! has_tok JTok.view line then p
                  else (p.1, subst_name i line p.2)).1 = p.1 := by
              split <;> rfl
            rw [htarget]
            exact hcon
          · rw [if_neg htriv] at hst
            rcases List.mem_cons.mp hst with hst | hst
            · rw [hst]; exact hne
            · exact ih rest hlen hnd.2 p hp hpm hpt st hst

/-- Well-formedness of a fragment table produced by the Backend B traversal:
walking the table oldest-first, every reference name occurring in a line
points to an already-processed fragment (children are emitted before
parents).  `done` collects the ids already popped. -/
def refs_ok (done : List Nat) : List (Nat × List JTok) → Prop
  | [] => True
  | kv :: rest =>
    (∀ j, has_tok (JTok.name j) kv.2 = true → j ∈ done) ∧ refs_ok (kv.1 :: done) rest

theorem refs_ok_mono :
    ∀ (fs : List (Nat × List JTok)) (done1 done2 : List Nat),
      refs_ok done1 fs → done1 ⊆ done2 → refs_ok done2 fs := by
  intro fs
  induction fs with
  | nil => intro _ _ _ _; trivial
  | cons kv rest ih =>
    intro done1 done2 h hsub
    exact ⟨fun j hj => hsub (h.1 j hj),
      ih _ _ h.2 (List.cons_subset_cons _ hsub)⟩

theorem refs_ok_subst :
    ∀ (rest : List (Nat × List JTok)) (done : List Nat) (i : Nat) (line : List JTok),
      refs_ok (i :: done) rest →
      (∀ j, has_tok (JTok.name j) line = true → j ∈ done) →
      (∀ q ∈ rest, has_tok JTok.mulBang q.2 = false) →
      refs_ok done (rest.map fun kv =>
        if has_tok JTok.mulBang kv.2 && ! has_tok JTok.view line then kv
        else (kv.1, subst_name i line kv.2)) := by
  intro rest
  induction rest with
  | nil => intro _ _ _ _ _ _; trivial
  | cons kv tail ih =>
    intro done i line h hline hmb
    have hkvmb : has_tok JTok.mulBang kv.2 = false := hmb kv (List.mem_cons_self _ _)
    simp only [List.map_cons]
    rw [if_neg (by rw [hkvmb]; simp)]
    constructor
    · intro j hj
      rcases has_tok_subst_name_cases i j line kv.2 hj with hh | hh
      · exact hline j hh
      · have := h.1 j hh.1
        rcases List.mem_cons.mp this with hji | hji
        · exact absurd hji hh.2
        · exact hji
    · have htail := ih (kv.1 :: done) i line
        (refs_ok_mono tail _ _ h.2 (by
          intro x hx
          rcases List.mem_cons.mp hx with hx | hx
          · rw [hx]; exact List.mem_cons_of_mem _ (List.mem_cons_self _ _)
          · rcases List.mem_cons.mp hx with hx | hx
            · rw [hx]; exact List.mem_cons_self _ _
            · exact List.mem_cons_of_mem _ (List.mem_cons_of_mem _ hx)))
        (fun j hj => List.mem_cons_of_mem _ (hline j hj))
        (fun q hq => hmb q (List.mem_cons_of_mem _ hq))
      exact htail

theorem inline_pass_elim_aux :
    ∀ (n : Nat) (fs : List (Nat × List JTok)) (done : List Nat), fs.length ≤ n →
      refs_ok done fs → (done ++ fs.map Prod.fst).Nodup →
      (∀ q ∈ fs, has_tok JTok.mulBang q.2 = false) →
      ∀ p ∈ fs, has_tok JTok.matmul p.2 = false → inlineable_line p.2 = true →
        ∀ st ∈ inline_pass fs, has_tok (JTok.name p.1) st.line = false := by
  intro n
  induction n with
  | zero =>
    intro fs done hlen _ _ _ p hp
    rw [List.length_eq_zero.mp (Nat.le_zero.mp hlen)] at hp
    cases hp
  | succ n ih =>
    intro fs done hlen hro hnd hmb p hp hpm hpt st hst
    match fs with
    | [] => cases hp
    | (i, line) :: rest =>
      rw [inline_pass] at hst
      simp only [List.length_cons, Nat.add_le_add_iff_right] at hlen
      obtain ⟨hline_refs, hrest_ro⟩ := hro
      have hdisj : List.Disjoint done (i :: rest.map Prod.fst) :=
        List.disjoint_of_nodup_append hnd
      have hmb_rest : ∀ q ∈ rest, has_tok JTok.mulBang q.2 = false :=
        fun q hq => hmb q (List.mem_cons_of_mem _ hq)
      rcases List.mem_cons.mp hp with hp | hp
      · -- the line being eliminated is the head: it takes the inlining branch
        have hline_m : has_tok JTok.matmul line = false := by
          rw [hp] at hpm; exact hpm
        have hline_t : inlineable_line line = true := by
          rw [hp] at hpt; exact hpt
        rw [if_neg (by rw [hline_m]; simp), if_pos hline_t] at hst
        have hiline : has_tok (JTok.name i) line = false := by
          cases hx : has_tok (JTok.name i) line with
          | false => rfl
          | true =>
            exact absurd (List.mem_cons_self i _) (hdisj (hline_refs i hx))
        have habs : ∀ q ∈ (rest.map fun kv =>
            if has_tok JTok.mulBang kv.2 && ! has_tok JTok.view line then kv
            else (kv.1, subst_name i line kv.2)),
            has_tok (JTok.name i) q.2 = false := by
          intro q hq
          obtain ⟨kv, hkv, rfl⟩ := List.mem_map.mp hq
          rw [if_neg (by rw [hmb_rest kv hkv]; simp)]
          exact has_tok_subst_self i line kv.2 hiline
        have := inline_pass_no_ref_aux _ i _ (by simpa using hlen) habs st hst
        rw [hp]
        exact this
      · have hrefs_line_not_p : has_tok (JTok.name p.1) line = false := by
          cases hx : has_tok (JTok.name p.1) line with
          | false => rfl
          | true =>
            have hdone := hline_refs p.1 hx
            have hmem : p.1 ∈ i :: rest.map Prod.fst :=
              List.mem_cons_of_mem _ (List.mem_map.mpr ⟨p, hp, rfl⟩)
            exact absurd hmem (hdisj hdone)
        by_cases hm : has_tok JTok.matmul line = true
        · rw [if_pos hm] at hst
          rcases List.mem_cons.mp hst with hst | hst
          · rw [hst, JStmt.line, has_tok_to_mul_args]
            exact hrefs_line_not_p
          · refine ih rest (i :: done) hlen hrest_ro ?_ hmb_rest p hp hpm hpt st hst
            show ((i :: done) ++ rest.map Prod.fst).Nodup
            have hperm : (done ++ i :: rest.map Prod.fst).Perm
                (i :: (done ++ rest.map Prod.fst)) := List.perm_middle
            exact hperm.nodup hnd
        · rw [if_neg hm] at hst
          have hlm : has_tok JTok.matmul line = false := by
            cases hx : has_tok JTok.matmul line
            · rfl
            · exact absurd hx hm
          by_cases htriv : inlineable_line line = true
          · rw [if_pos htriv] at hst
            have hro2 := refs_ok_subst rest done i line hrest_ro hline_refs hmb_rest
            have hnd2 : (done ++ (rest.map fun kv =>
                if has_tok JTok.mulBang kv.2 && ! has_tok JTok.view line then kv
                else (kv.1, subst_name i line kv.2)).map Prod.fst).Nodup := by
              rw [inline_pass_keys_map _ (fun kv => by split <;> rfl)]
              refine List.Nodup.sublist ?_ hnd
              exact List.Sublist.append_left (List.sublist_cons_self _ _) done
            have hmb2 : ∀ q ∈ (rest.map fun kv =>
                if has_tok JTok.mulBang kv.2 && ! has_tok JTok.view line then kv
                else (kv.1, subst_name i line kv.2)),
                has_tok JTok.mulBang q.2 = false := by
              intro q hq
              obtain ⟨kv, hkv, rfl⟩ := List.mem_map.mp hq
              rw [if_neg (by rw [hmb_rest kv hkv]; simp)]
              show has_tok JTok.mulBang (subst_name i line kv.2) = false
              cases hres : has_tok JTok.mulBang (subst_name i line kv.2) with
              | false => rfl
              | true =>
                rcases has_tok_subst_cases i line kv.2 _ hres with hh | hh
                · rw [hmb_rest kv hkv] at hh; cases hh
                · rw [hmb (i, line) (List.mem_cons_self _ _)] at hh; cases hh
            have hres := ih _ done (by simpa using hlen) hro2 hnd2 hmb2
              (if has_tok JTok.mulBang p.2 && ! has_tok JTok.view line then p
                else (p.1, subst_name i line p.2))
              (List.mem_map.mpr ⟨p, hp, rfl⟩)
              (by
                split
                · exact hpm
                · show has_tok JTok.matmul (subst_name i line p.2) = false
                  cases hres2 : has_tok JTok.matmul (subst_name i line p.2) with
                  | false => rfl
                  | true =>
                    rcases has_tok_subst_cases i line p.2 _ hres2 with hh | hh
                    · rw [hpm] at hh; cases hh
                    · rw [hlm] at hh; cases hh)
              (by
                split
                · exact hpt
                · exact inlineable_subst i line p.2 hpt)
              st hst
            have htarget :
                (if has_tok JTok.mulBang p.2 && ! has_tok JTok.view line then p
                  else (p.1, subst_name i line p.2)).1 = p.1 := by
              split <;> rfl
            rw [htarget] at hres
            exact hres
          · rw [if_neg htriv] at hst
            rcases List.mem_cons.mp hst with hst | hst
            · rw [hst, JStmt.line]
              exact hrefs_line_not_p
            · refine ih rest (i :: done) hlen hrest_ro ?_ hmb_rest p hp hpm hpt st hst
              show ((i :: done) ++ rest.map Prod.fst).Nodup
              have hperm : (done ++ i :: rest.map Prod.fst).Perm
                  (i :: (done ++ rest.map Prod.fst)) := List.perm_middle
              exact hperm.nodup hnd

/-- C5: in the Backend B inlining pass, (1) every fragment whose line
contains the matrix-multiplication marker is rewritten into an in-place
`mul!` statement targeting its own cache slot; (2) every fragment judged
trivial (a view or a pure elementwise add/subtract/multiply/divide, and not
a matrix multiplication — that branch is tested first) is not emitted as a
statement; and (3) under the well-formedness every generated table enjoys —
references point to earlier fragments, distinct ids, and no line contains
the `mul!` marker (it is only introduced on already-emitted statements, so
the source's guard protecting a `mul!` target from substitution by a
non-view replacement can never fire) — the trivial fragment's reference
name is replaced by its defining expression everywhere, so no emitted
statement, `mul!` statements included, still references it. -/
theorem inline_pass_spec (fs : List (Nat × List JTok)) :
    (∀ p ∈ fs, has_tok JTok.matmul p.2 = true →
      ∃ args, JStmt.mul p.1 args ∈ inline_pass fs) ∧
    ((fs.map Prod.fst).Nodup →
      ∀ p ∈ fs, has_tok JTok.matmul p.2 = false → inlineable_line p.2 = true →
        ∀ st ∈ inline_pass fs, st.target ≠ p.1) ∧
    (refs_ok [] fs → (fs.map Prod.fst).Nodup →
      (∀ q ∈ fs, has_tok JTok.mulBang q.2 = false) →
      ∀ p ∈ fs, has_tok JTok.matmul p.2 = false → inlineable_line p.2 = true →
        ∀ st ∈ inline_pass fs, has_tok (JTok.name p.1) st.line = false) := by
  refine ⟨?_, ?_, ?_⟩
  · exact fun p hp hm => inline_pass_mul_aux fs.length fs (Nat.le_refl _) p hp hm
  · exact fun hnd p hp hm ht =>
      inline_pass_triv_aux fs.length fs (Nat.le_refl _) hnd p hp hm ht
  · exact fun hro hnd hmb p hp hm ht =>
      inline_pass_elim_aux fs.length fs [] (Nat.le_refl _) hro (by simpa using hnd)
        hmb p hp hm ht

/-- C5 witness: a three-fragment table — a view, a matrix multiplication
referencing it, and a trivial elementwise sum.  The multiplication becomes
the single emitted `mul!` statement against its own slot, the two trivial
fragments are not emitted, and no emitted statement references the
eliminated view by name. -/
theorem inline_pass_spec_witness :
    inline_pass
        [(1, [JTok.view, JTok.other " y[1:2]"]),
         (2, [JTok.other "c.const_7", JTok.matmul, JTok.name 1]),
         (3, [JTok.name 2, JTok.dotPlus, JTok.name 1])]
      = [JStmt.mul 2
          [JTok.other "c.const_7", JTok.other ", ", JTok.view, JTok.other " y[1:2]"]] ∧
    (∃ args, JStmt.mul 2 args ∈ inline_pass
        [(1, [JTok.view, JTok.other " y[1:2]"]),
         (2, [JTok.other "c.const_7", JTok.matmul, JTok.name 1]),
         (3, [JTok.name 2, JTok.dotPlus, JTok.name 1])]) ∧
    (∀ st ∈ inline_pass
        [(1, [JTok.view, JTok.other " y[1:2]"]),
         (2, [JTok.other "c.const_7", JTok.matmul, JTok.name 1]),
         (3, [JTok.name 2, JTok.dotPlus, JTok.name 1])], st.target ≠ 1) ∧
    (∀ st ∈ inline_pass
        [(1, [JTok.view, JTok.other " y[1:2]"]),
         (2, [JTok.other "c.const_7", JTok.matmul, JTok.name 1]),
         (3, [JTok.name 2, JTok.dotPlus, JTok.name 1])],
      has_tok (JTok.name 1) st.line = false) := by
  have hro : refs_ok []
      [(1, [JTok.view, JTok.other " y[1:2]"]),
       (2, [JTok.other "c.const_7", JTok.matmul, JTok.name 1]),
       (3, [JTok.name 2, JTok.dotPlus, JTok.name 1])] := by
    refine ⟨?_, ?_, ?_, trivial⟩
    · intro j hj
      simp [has_tok] at hj
    · intro j hj
      simp [has_tok] at hj
      simp [hj]
    · intro j hj
      simp [has_tok] at hj
      rcases hj with hj | hj <;> simp [hj]
  have hmain := inline_pass_spec
    [(1, [JTok.view, JTok.other " y[1:2]"]),
     (2, [JTok.other "c.const_7", JTok.matmul, JTok.name 1]),
     (3, [JTok.name 2, JTok.dotPlus, JTok.name 1])]
  refine ⟨?_, ?_, ?_, ?_⟩
  · simp [inline_pass, has_tok, subst_name, to_mul_args, inlineable_line]
  · exact hmain.1 (2, [JTok.other "c.const_7", JTok.matmul, JTok.name 1])
      (by decide) (by decide)
  · exact hmain.2.1 (by decide) (1, [JTok.view, JTok.other " y[1:2]"])
      (by decide) (by decide) (by decide)
  · exact hmain.2.2 hro (by decide) (by decide)
      (1, [JTok.view, JTok.other " y[1:2]"]) (by decide) (by decide) (by decide)

end PyBamm
